import Mathlib

/-!
Verification of the `shurcooL/notifications` repository, centered on the
virtual-filesystem implementation of the notification service in `fs/fs.go`
(the current version of that file: `List`, `Notify`, `MarkRead`,
`MarkAllRead`, `user`) together with its path/encoding scheme
(`marshalUserSpec`, `unmarshalUserSpec`, `notificationKey`,
`subscribersDir` from the fs package scheme file) and the sort order of
`Notifications` from the package root.

Modelling conventions:
* Go strings are modelled as `List Char` (`Str`).
* The webdav filesystem is modelled by its observable directory contents:
  association lists from directory name to the list of `(fileName, content)`
  entries.  `ReadDir` enumerates a directory in its representation order.
* `time.Time` is modelled as an `Int` (nanoseconds); `time.Since(t)` is
  `now - t` for the `now` passed to an operation.
* JSON encode/decode of a stored notification is modelled by storing the
  record itself; a file that would fail to decode is `Entry.corrupt`.
* The users service is modelled by the authenticated caller passed to each
  operation plus a resolver function `UserSpec → Option User` standing for
  `users.Get` (`none` = resolution error).
-/

set_option autoImplicit false

namespace NotifFS

/-- Go strings are modelled as lists of characters. -/
abbrev Str := List Char

/-! ### Decimal formatting and parsing (Go `strconv`, `fmt %d`) -/

/-- The decimal digit character for `d` (only ever applied to `d < 10`). -/
def digitChar (d : Nat) : Char :=
  match d with
  | 0 => '0' | 1 => '1' | 2 => '2' | 3 => '3' | 4 => '4'
  | 5 => '5' | 6 => '6' | 7 => '7' | 8 => '8' | _ => '9'

/-- Numeric value of a decimal digit character. -/
def charVal (c : Char) : Nat := c.toNat - 48

/-- Whether `c` is a decimal digit, as in Go's `strconv.ParseUint` base-10 scan. -/
def isDecDigit (c : Char) : Bool := decide (48 ≤ c.toNat) && decide (c.toNat ≤ 57)

/-- Fuel-driven decimal rendering of `n` (most significant digit first).
Returns `[]` when `n = 0` or fuel runs out; `formatNat` supplies enough fuel. -/
def natToCharsAux : Nat → Nat → List Char
  | 0, _ => []
  | fuel + 1, n => if n = 0 then [] else natToCharsAux fuel (n / 10) ++ [digitChar (n % 10)]

/-- Embedding of Go's `strconv.FormatUint(n, 10)` (also `fmt.Sprintf("%d", n)`). -/
def formatNat (n : Nat) : Str := if n = 0 then ['0'] else natToCharsAux (n + 1) n

/-- Value of a digit string read most-significant-first, starting from `a`. -/
def valFrom (a : Nat) (s : Str) : Nat := s.foldl (fun acc c => 10 * acc + charVal c) a

/-- Embedding of Go's `strconv.ParseUint(s, 10, 64)`:
requires a nonempty all-digit string whose value fits in 64 bits. -/
def parseUint64 (s : Str) : Option Nat :=
  if s.isEmpty then none
  else if s.all isDecDigit then
    if valFrom 0 s < 2 ^ 64 then some (valFrom 0 s) else none
  else none

theorem charVal_digitChar {d : Nat} (h : d < 10) : charVal (digitChar d) = d := by
  interval_cases d <;> rfl

theorem isDecDigit_digitChar {d : Nat} (h : d < 10) : isDecDigit (digitChar d) = true := by
  interval_cases d <;> rfl

theorem digitChar_isDecDigit_ne {c : Char} (h : isDecDigit c = true) : c ≠ '@' := by
  intro hc
  subst hc
  simp [isDecDigit] at h

theorem valFrom_append (a : Nat) (s t : Str) :
    valFrom a (s ++ t) = valFrom (valFrom a s) t := by
  simp [valFrom, List.foldl_append]

theorem natToCharsAux_all_digits :
    ∀ fuel n, n ≤ fuel → (natToCharsAux fuel n).all isDecDigit = true := by
  intro fuel
  induction fuel with
  | zero => intro n _; rfl
  | succ fuel ih =>
    intro n hn
    by_cases h0 : n = 0
    · simp [natToCharsAux, h0]
    · have hdiv : n / 10 ≤ fuel := by
        have := Nat.div_lt_self (Nat.pos_of_ne_zero h0) (by norm_num : 1 < 10)
        omega
      simp only [natToCharsAux, if_neg h0, List.all_append, Bool.and_eq_true]
      refine And.intro (ih _ hdiv) ?_
      simp [isDecDigit_digitChar (Nat.mod_lt n (by norm_num))]

theorem valFrom_natToCharsAux :
    ∀ fuel n a, n ≤ fuel →
      valFrom a (natToCharsAux fuel n) = a * 10 ^ (natToCharsAux fuel n).length + n := by
  intro fuel
  induction fuel with
  | zero =>
    intro n a hn
    have : n = 0 := Nat.le_zero.mp hn
    simp [natToCharsAux, valFrom, this]
  | succ fuel ih =>
    intro n a hn
    by_cases h0 : n = 0
    · simp [natToCharsAux, h0, valFrom]
    · have hdiv : n / 10 ≤ fuel := by
        have := Nat.div_lt_self (Nat.pos_of_ne_zero h0) (by norm_num : 1 < 10)
        omega
      have hmod : n % 10 < 10 := Nat.mod_lt n (by norm_num)
      simp only [natToCharsAux, if_neg h0]
      rw [valFrom_append, ih _ a hdiv]
      simp only [valFrom, List.foldl_cons, List.foldl_nil, List.length_append,
        List.length_cons, List.length_nil]
      rw [charVal_digitChar hmod]
      have : 10 * (a * 10 ^ (natToCharsAux fuel (n / 10)).length + n / 10) + n % 10
          = a * 10 ^ ((natToCharsAux fuel (n / 10)).length + 1) + (10 * (n / 10) + n % 10) := by
        ring
      rw [this, Nat.div_add_mod]

theorem valFrom_formatNat (n : Nat) : valFrom 0 (formatNat n) = n := by
  by_cases h0 : n = 0
  · simp [formatNat, h0, valFrom, charVal, digitChar]
  · simp only [formatNat, if_neg h0]
    rw [valFrom_natToCharsAux (n + 1) n 0 (Nat.le_succ n)]
    simp

theorem formatNat_all_digits (n : Nat) : (formatNat n).all isDecDigit = true := by
  by_cases h0 : n = 0
  · simp [formatNat, h0, isDecDigit]
  · simp only [formatNat, if_neg h0]
    exact natToCharsAux_all_digits (n + 1) n (Nat.le_succ n)

theorem formatNat_ne_nil (n : Nat) : formatNat n ≠ [] := by
  by_cases h0 : n = 0
  · simp [formatNat, h0]
  · simp only [formatNat, if_neg h0]
    intro hcontra
    have := valFrom_natToCharsAux (n + 1) n 0 (Nat.le_succ n)
    rw [hcontra] at this
    simp [valFrom] at this
    exact h0 this.symm

theorem parseUint64_formatNat {n : Nat} (h : n < 2 ^ 64) :
    parseUint64 (formatNat n) = some n := by
  have h' : n < 18446744073709551616 := by norm_num at h; exact h
  simp [parseUint64, List.isEmpty_iff, formatNat_ne_nil n, formatNat_all_digits n,
    valFrom_formatNat n, h']

theorem formatNat_inj {a b : Nat} (h : formatNat a = formatNat b) : a = b := by
  have ha := valFrom_formatNat a
  rw [h, valFrom_formatNat b] at ha
  exact ha.symm

/-! ### User spec marshalling (fs scheme: `marshalUserSpec` / `unmarshalUserSpec`) -/

/-- `users.UserSpec`: a numeric id (uint64 in Go) and a domain string. -/
structure UserSpec where
  id : Nat
  domain : Str
deriving DecidableEq, Repr

/-- `marshalUserSpec`: `fmt.Sprintf("%d@%s", us.ID, us.Domain)`. -/
def marshalUserSpec (us : UserSpec) : Str :=
  formatNat us.id ++ '@' :: us.domain

/-- Split at the first occurrence of `sep`; `none` when `sep` does not occur.
This matches `strings.SplitN(s, sep, 2)` producing two parts (`some`) or one. -/
def splitFirst : Str → Char → Option (Str × Str)
  | [], _ => none
  | c :: rest, sep =>
    if c = sep then some ([], rest)
    else
      match splitFirst rest sep with
      | none => none
      | some (a, b) => some (c :: a, b)

/-- `unmarshalUserSpec`: split on the first `@` into two parts
(`strings.SplitN(userSpec, "@", 2)`; fewer than 2 parts is an error),
then `strconv.ParseUint(parts[0], 10, 64)`. -/
def unmarshalUserSpec (s : Str) : Option UserSpec :=
  match splitFirst s '@' with
  | none => none
  | some (pre, post) =>
    match parseUint64 pre with
    | none => none
    | some i => some ⟨i, post⟩

theorem splitFirst_append {pre post : Str} {sep : Char}
    (h : ∀ c ∈ pre, c ≠ sep) :
    splitFirst (pre ++ sep :: post) sep = some (pre, post) := by
  induction pre with
  | nil => simp [splitFirst]
  | cons c rest ih =>
    have hc : c ≠ sep := h c (List.mem_cons_self c rest)
    have hrest : ∀ x ∈ rest, x ≠ sep := fun x hx => h x (List.mem_cons_of_mem c hx)
    simp [splitFirst, hc, ih hrest]

theorem splitFirst_marshalUserSpec (u : UserSpec) :
    splitFirst (marshalUserSpec u) '@' = some (formatNat u.id, u.domain) := by
  apply splitFirst_append
  intro c hc
  have hall := formatNat_all_digits u.id
  rw [List.all_eq_true] at hall
  exact digitChar_isDecDigit_ne (hall c hc)

theorem unmarshal_marshalUserSpec {u : UserSpec} (h : u.id < 2 ^ 64) :
    unmarshalUserSpec (marshalUserSpec u) = some u := by
  simp [unmarshalUserSpec, splitFirst_marshalUserSpec u, parseUint64_formatNat h]

theorem marshalUserSpec_inj {u v : UserSpec} (h : marshalUserSpec u = marshalUserSpec v) :
    u = v := by
  have hu := splitFirst_marshalUserSpec u
  rw [h, splitFirst_marshalUserSpec v] at hu
  cases u; cases v
  simp only [Option.some.injEq, Prod.mk.injEq] at hu
  simp only [UserSpec.mk.injEq]
  exact ⟨(formatNat_inj hu.1).symm, hu.2.symm⟩

/-! ### Association lists: directory contents keyed by name -/

/-- First binding for key `k`, in representation order (a directory listing). -/
def lookupA {κ α : Type} [DecidableEq κ] : List (κ × α) → κ → Option α
  | [], _ => none
  | (k', v) :: rest, k => if k' = k then some v else lookupA rest k

/-- Replace the binding for `k` in place, or append it (a file write / mkdir). -/
def insertA {κ α : Type} [DecidableEq κ] : List (κ × α) → κ → α → List (κ × α)
  | [], k, v => [(k, v)]
  | (k', v') :: rest, k, v =>
    if k' = k then (k, v) :: rest else (k', v') :: insertA rest k v

/-- Remove every binding for `k` (`RemoveAll`; directories have unique names,
so this also models removing the single file named `k`). -/
def removeA {κ α : Type} [DecidableEq κ] : List (κ × α) → κ → List (κ × α)
  | [], _ => []
  | (k', v') :: rest, k =>
    if k' = k then removeA rest k else (k', v') :: removeA rest k

theorem lookupA_insertA_self {κ α : Type} [DecidableEq κ] (m : List (κ × α)) (k : κ) (v : α) :
    lookupA (insertA m k v) k = some v := by
  induction m with
  | nil => simp [insertA, lookupA]
  | cons e rest ih =>
    obtain ⟨k', v'⟩ := e
    by_cases h : k' = k
    · simp [insertA, h, lookupA]
    · simp only [insertA, if_neg h, lookupA, if_neg h]
      exact ih

theorem lookupA_insertA_ne {κ α : Type} [DecidableEq κ] (m : List (κ × α)) {k k' : κ} (v : α)
    (h : k' ≠ k) : lookupA (insertA m k v) k' = lookupA m k' := by
  induction m with
  | nil =>
    simp only [insertA, lookupA, if_neg (Ne.symm h)]
  | cons e rest ih =>
    obtain ⟨k0, v0⟩ := e
    by_cases h0 : k0 = k
    · subst h0
      simp only [insertA, if_pos rfl, lookupA, if_neg (Ne.symm h)]
    · by_cases h1 : k0 = k'
      · simp only [insertA, if_neg h0, lookupA, if_pos h1]
      · simp only [insertA, if_neg h0, lookupA, if_neg h1]
        exact ih

theorem lookupA_removeA_self {κ α : Type} [DecidableEq κ] (m : List (κ × α)) (k : κ) :
    lookupA (removeA m k) k = none := by
  induction m with
  | nil => simp [removeA, lookupA]
  | cons e rest ih =>
    obtain ⟨k', v'⟩ := e
    by_cases h : k' = k
    · simp only [removeA, if_pos h]
      exact ih
    · simp only [removeA, if_neg h, lookupA, if_neg h]
      exact ih

theorem lookupA_removeA_ne {κ α : Type} [DecidableEq κ] (m : List (κ × α)) {k k' : κ}
    (h : k' ≠ k) : lookupA (removeA m k) k' = lookupA m k' := by
  induction m with
  | nil => simp [removeA]
  | cons e rest ih =>
    obtain ⟨k0, v0⟩ := e
    by_cases h0 : k0 = k
    · subst h0
      simp only [removeA, if_pos rfl, lookupA, if_neg (Ne.symm h)]
      exact ih
    · by_cases h1 : k0 = k'
      · simp only [removeA, if_neg h0, lookupA, if_pos h1]
      · simp only [removeA, if_neg h0, lookupA, if_neg h1]
        exact ih

theorem removeA_eq_filter {κ α : Type} [DecidableEq κ] (m : List (κ × α)) (k : κ) :
    removeA m k = m.filter (fun e => !(decide (e.1 = k))) := by
  induction m with
  | nil => rfl
  | cons e rest ih =>
    obtain ⟨k', v'⟩ := e
    by_cases h : k' = k <;> simp [removeA, h, List.filter, ih]

theorem mem_keys_insertA {κ α : Type} [DecidableEq κ] {m : List (κ × α)} {k k' : κ} {v : α}
    (hmem : k' ∈ (insertA m k v).map Prod.fst) :
    k' ∈ m.map Prod.fst ∨ k' = k := by
  induction m with
  | nil =>
    simp only [insertA, List.map_cons, List.map_nil, List.mem_singleton] at hmem
    exact Or.inr hmem
  | cons e rest ih =>
    obtain ⟨k0, v0⟩ := e
    by_cases h0 : k0 = k
    · subst h0
      have hstep : insertA ((k0, v0) :: rest) k0 v = (k0, v) :: rest := by
        simp [insertA]
      rw [hstep] at hmem
      simp only [List.map_cons, List.mem_cons] at hmem
      rcases hmem with h | h
      · exact Or.inr h
      · exact Or.inl (List.mem_cons_of_mem _ h)
    · simp only [insertA, if_neg h0, List.map_cons, List.mem_cons] at hmem
      rcases hmem with h | h
      · refine Or.inl ?_
        simp only [List.map_cons, List.mem_cons]
        exact Or.inl h
      · rcases ih h with h2 | h2
        · refine Or.inl ?_
          simp only [List.map_cons, List.mem_cons]
          exact Or.inr h2
        · exact Or.inr h2

theorem keys_insertA_nodup {κ α : Type} [DecidableEq κ] (m : List (κ × α)) (k : κ) (v : α)
    (h : (m.map Prod.fst).Nodup) : ((insertA m k v).map Prod.fst).Nodup := by
  induction m with
  | nil => simp [insertA]
  | cons e rest ih =>
    obtain ⟨k0, v0⟩ := e
    simp only [List.map_cons, List.nodup_cons] at h
    by_cases h0 : k0 = k
    · subst h0
      simp only [insertA, List.map_cons, List.nodup_cons, if_true, eq_self_iff_true]
      exact h
    · simp only [insertA, if_neg h0, List.map_cons, List.nodup_cons]
      refine ⟨fun hmem => ?_, ih h.2⟩
      rcases mem_keys_insertA hmem with hin | heq
      · exact h.1 hin
      · exact h0 heq

theorem mem_keys_removeA {κ α : Type} [DecidableEq κ] {m : List (κ × α)} {k k' : κ}
    (hmem : k' ∈ (removeA m k).map Prod.fst) : k' ∈ m.map Prod.fst := by
  induction m with
  | nil => simp [removeA] at hmem
  | cons e rest ih =>
    obtain ⟨k0, v0⟩ := e
    by_cases h0 : k0 = k
    · simp only [removeA, if_pos h0] at hmem
      exact List.mem_cons_of_mem _ (ih hmem)
    · simp only [removeA, if_neg h0, List.map_cons, List.mem_cons] at hmem ⊢
      rcases hmem with h | h
      · exact Or.inl h
      · exact Or.inr (ih h)

theorem keys_removeA_nodup {κ α : Type} [DecidableEq κ] (m : List (κ × α)) (k : κ)
    (h : (m.map Prod.fst).Nodup) : ((removeA m k).map Prod.fst).Nodup := by
  induction m with
  | nil => simp [removeA]
  | cons e rest ih =>
    obtain ⟨k', v'⟩ := e
    simp only [List.map_cons, List.nodup_cons] at h
    by_cases hk : k' = k
    · simp only [removeA, if_pos hk]
      exact ih h.2
    · simp only [removeA, if_neg hk, List.map_cons, List.nodup_cons]
      exact ⟨fun hmem => h.1 (mem_keys_removeA hmem), ih h.2⟩

/-! ### Data model (fs scheme + package root types) -/

/-- `notifications.RGB`: a 24-bit colour (three `uint8` components). -/
structure RGB where
  r : Nat
  g : Nat
  b : Nat
deriving DecidableEq, Repr

/-- `users.User`: display attributes produced by the identity resolver. -/
structure User where
  spec : UserSpec
  login : Str
  avatarURL : Str
  htmlURL : Str
deriving DecidableEq, Repr

/-- The on-disk `notification` record written by the fs service
(`RepoSpec`, `ThreadType`, `ThreadID`, `Title`, `Icon`, `Color`, `Actor`,
`UpdatedAt`, `HTMLURL`, `Participating`). -/
structure DiskNotif where
  repoURI : Str
  threadType : Str
  threadID : Nat
  title : Str
  icon : Str
  color : RGB
  actor : UserSpec
  updatedAt : Int
  htmlURL : Str
  participating : Bool
deriving DecidableEq, Repr

/-- A stored file: either a record that decodes, or one whose JSON decode fails. -/
inductive Entry where
  | good (n : DiskNotif)
  | corrupt
deriving DecidableEq, Repr

/-- `notifications.Notification` as produced by `List` in fs.go.
Modelled from the spec for field shape (the current package root source file
is not in the repository snapshot); the fields are exactly those populated
by `List` in fs.go, plus the `Read` flag it sets for read-area records. -/
structure Notification where
  repoURI : Str
  threadType : Str
  threadID : Nat
  title : Str
  icon : Str
  color : RGB
  actor : User
  updatedAt : Int
  read : Bool
  htmlURL : Str
deriving DecidableEq, Repr

/-- `notifications.NotificationRequest` (current interface): content of a `Notify`. -/
structure NotificationRequest where
  title : Str
  icon : Str
  color : RGB
  actor : UserSpec
  updatedAt : Int
  htmlURL : Str
deriving DecidableEq, Repr

/-- `notifications.ListOptions` as used by fs.go `List`: the optional repo
filter (`*RepoSpec`) and the `All` (include read) flag.
Modelled from the spec (`options{repo filter, include-read flag}`); the
current package root source file is not in the repository snapshot, but
fs.go's uses (`opt.Repo`, `opt.All`) fix both fields. -/
structure ListOptions where
  all : Bool
  repo : Option Str
deriving DecidableEq, Repr

/-- Errors surfaced by the modelled operations. -/
inductive Err where
  | permission
  | decodeFail
  | renameFail
deriving DecidableEq, Repr

/-- One notification area (`notifications/` or `read/`): directory name
(a marshalled user spec) to directory contents (file name to entry). -/
abbrev Area := List (Str × List (Str × Entry))

/-- The store: the two notification areas plus the subscribers tree
(`subscribers/...` directory path to entries `(name, isDir)`). -/
structure FS where
  unread : Area
  readArea : Area
  subs : List (Str × List (Str × Bool))
deriving DecidableEq, Repr

/-! ### Path scheme (fs scheme file) -/

/-- `strings.Replace(uri, "/", "-", -1)`. -/
def replaceSlashDash (s : Str) : Str := s.map fun c => if c = '/' then '-' else c

/-- `notificationKey`: `fmt.Sprintf("%s-%s-%d", replace(repo.URI), threadType, threadID)`. -/
def notificationKey (repoURI threadType : Str) (threadID : Nat) : Str :=
  replaceSlashDash repoURI ++ '-' :: threadType ++ '-' :: formatNat threadID

/-- `path.Join` on clean components: empty components are skipped,
the rest are joined with `/`. -/
def joinPath (parts : List Str) : Str :=
  List.intercalate ['/'] (parts.filter fun p => !p.isEmpty)

/-- `subscribersDir`: repo scope (`threadType == "" && threadID == 0`) is
`subscribers/{repo}`, thread scope is `subscribers/{repo}/{threadType}-{threadID}`. -/
def subscribersDirPath (repoURI threadType : Str) (threadID : Nat) : Str :=
  if threadType = [] ∧ threadID = 0 then
    joinPath [("subscribers".toList), repoURI]
  else
    joinPath [("subscribers".toList), repoURI, threadType ++ '-' :: formatNat threadID]

/-! ### The service operations (fs.go) -/

/-- `30 * 24 * time.Hour` in nanoseconds: the read-notification retention window. -/
def retention : Int := 30 * 24 * 60 * 60 * 1000000000

/-- `s.user`: resolve an actor via the users service, falling back to a
synthesized identity (`fmt.Sprintf("%d@%s", ID, Domain)`, empty avatar and
profile URLs) when resolution fails. -/
def serviceUser (resolver : UserSpec → Option User) (u : UserSpec) : User :=
  match resolver u with
  | some x => x
  | none => { spec := u, login := marshalUserSpec u, avatarURL := [], htmlURL := [] }

/-- The `notifications.Notification` built by `List` from a stored record. -/
def toNotification (resolver : UserSpec → Option User) (n : DiskNotif) (isRead : Bool) :
    Notification :=
  { repoURI := n.repoURI, threadType := n.threadType, threadID := n.threadID,
    title := n.title, icon := n.icon, color := n.color,
    actor := serviceUser resolver n.actor, updatedAt := n.updatedAt,
    read := isRead, htmlURL := n.htmlURL }

/-- The repo filter of `List`: `opt.Repo != nil && record.RepoSpec != *opt.Repo` skips. -/
def repoKeep (opt : ListOptions) (n : DiskNotif) : Bool :=
  match opt.repo with
  | none => true
  | some r => decide (n.repoURI = r)

/-- The unread-area loop of `List`: decode each entry (a failure aborts with
an error), apply the repo filter, convert survivors in order. -/
def procUnread (resolver : UserSpec → Option User) (opt : ListOptions) :
    List (Str × Entry) → Except Err (List Notification)
  | [] => .ok []
  | (_, Entry.corrupt) :: _ => .error .decodeFail
  | (_, Entry.good n) :: rest =>
    match procUnread resolver opt rest with
    | .error e => .error e
    | .ok tail =>
      .ok (if repoKeep opt n then toNotification resolver n false :: tail else tail)

/-- The read-area loop of `List`: decode each entry, delete (drop from the
surviving contents) any record older than the retention window, filter by
repo, convert survivors in order.  Returns the collected notifications and
the directory contents left on disk. -/
def procRead (resolver : UserSpec → Option User) (now : Int) (opt : ListOptions) :
    List (Str × Entry) → Except Err (List Notification × List (Str × Entry))
  | [] => .ok ([], [])
  | (_, Entry.corrupt) :: _ => .error .decodeFail
  | (name, Entry.good n) :: rest =>
    match procRead resolver now opt rest with
    | .error e => .error e
    | .ok (tail, surv) =>
      if retention < now - n.updatedAt then .ok (tail, surv)
      else if repoKeep opt n then
        .ok (toNotification resolver n true :: tail, (name, Entry.good n) :: surv)
      else .ok (tail, (name, Entry.good n) :: surv)

/-- `List` (fs.go): authenticated caller required; unread records first, then
(with `opt.All`) the read area with lazy retention pruning, removing the
read directory when it ends up empty. -/
def listOp (resolver : UserSpec → Option User) (now : Int) (caller : UserSpec)
    (opt : ListOptions) (S : FS) : Except Err (List Notification × FS) :=
  if caller.id = 0 then .error .permission
  else
    match procUnread resolver opt ((lookupA S.unread (marshalUserSpec caller)).getD []) with
    | .error e => .error e
    | .ok ns1 =>
      if opt.all then
        match lookupA S.readArea (marshalUserSpec caller) with
        | none => .ok (ns1, S)
        | some es =>
          match procRead resolver now opt es with
          | .error e => .error e
          | .ok (ns2, surv) =>
            if surv.isEmpty then
              .ok (ns1 ++ ns2, { S with readArea := removeA S.readArea (marshalUserSpec caller) })
            else
              .ok (ns1 ++ ns2, { S with readArea := insertA S.readArea (marshalUserSpec caller) surv })
      else .ok (ns1, S)

/-- The record `Notify` writes for one subscriber. -/
def notifyRecord (repoURI threadType : Str) (threadID : Nat)
    (nr : NotificationRequest) (p : Bool) : DiskNotif :=
  { repoURI := repoURI, threadType := threadType, threadID := threadID,
    title := nr.title, htmlURL := nr.htmlURL, updatedAt := nr.updatedAt,
    icon := nr.icon, color := nr.color, actor := nr.actor, participating := p }

/-- One pass of `Notify`'s subscriber collection: directory entries are
skipped over (`fi.IsDir()`), file names that fail `unmarshalUserSpec` are
skipped, the rest are entered into the map with participation flag `p`
(overriding an earlier pass). -/
def collectSubs (entries : List (Str × Bool)) (p : Bool)
    (m : List (UserSpec × Bool)) : List (UserSpec × Bool) :=
  entries.foldl
    (fun acc e =>
      if e.2 then acc
      else
        match unmarshalUserSpec e.1 with
        | none => acc
        | some u => insertA acc u p)
    m

/-- `Notify`'s subscriber map: repo watchers (participating = false) first,
thread subscribers (participating = true) second so they take precedence. -/
def subscriberMap (S : FS) (repoURI threadType : Str) (threadID : Nat) :
    List (UserSpec × Bool) :=
  collectSubs ((lookupA S.subs (subscribersDirPath repoURI threadType threadID)).getD []) true
    (collectSubs ((lookupA S.subs (subscribersDirPath repoURI [] 0)).getD []) false [])

/-- `Notify`'s per-subscriber body: skip the acting caller; otherwise delete
any read record with the same key (`RemoveAll`), ensure the unread
directory exists (`Mkdir`, exists is fine), and write the record. -/
def notifyStep (caller : UserSpec) (repoURI threadType : Str) (threadID : Nat)
    (nr : NotificationRequest) (S : FS) (sub : UserSpec × Bool) : FS :=
  if sub.1 = caller then S
  else
    let us := marshalUserSpec sub.1
    let key := notificationKey repoURI threadType threadID
    let S1 :=
      match lookupA S.readArea us with
      | none => S
      | some es => { S with readArea := insertA S.readArea us (removeA es key) }
    { S1 with
      unread := insertA S1.unread us
        (insertA ((lookupA S1.unread us).getD []) key
          (Entry.good (notifyRecord repoURI threadType threadID nr sub.2))) }

/-- `Notify` (fs.go): authenticated caller required; fan out the record to
every collected subscriber except the caller. -/
def notifyOp (caller : UserSpec) (repoURI threadType : Str) (threadID : Nat)
    (nr : NotificationRequest) (S : FS) : Except Err FS :=
  if caller.id = 0 then .error .permission
  else
    .ok ((subscriberMap S repoURI threadType threadID).foldl
      (notifyStep caller repoURI threadType threadID nr) S)

/-- `MarkRead` (fs.go): authenticated caller required; if the unread record
for the key does not exist this is a no-op; otherwise ensure the read
directory exists, move the record there (`Rename`), and remove the unread
directory if it is now empty. -/
def markReadOp (caller : UserSpec) (repoURI threadType : Str) (threadID : Nat)
    (S : FS) : Except Err FS :=
  if caller.id = 0 then .error .permission
  else
    let us := marshalUserSpec caller
    let key := notificationKey repoURI threadType threadID
    match lookupA S.unread us with
    | none => .ok S
    | some es =>
      match lookupA es key with
      | none => .ok S
      | some e =>
        let es' := removeA es key
        let rd := insertA S.readArea us (insertA ((lookupA S.readArea us).getD []) key e)
        if es'.isEmpty then
          .ok { S with unread := removeA S.unread us, readArea := rd }
        else
          .ok { S with unread := insertA S.unread us es', readArea := rd }

/-- The iteration body of `MarkAllRead` over the snapshot of the caller's
unread directory listing: re-read the file by name (a missing or corrupt
file is logged and skipped), skip records of other repos, and move matching
records to the read area by the recomputed key (`Rename`; a missing source
is an error). -/
def markAllLoop (caller : UserSpec) (repoURI : Str) :
    List (Str × Entry) → FS → Except Err FS
  | [], S => .ok S
  | (name, _) :: rest, S =>
    let us := marshalUserSpec caller
    match lookupA ((lookupA S.unread us).getD []) name with
    | none => markAllLoop caller repoURI rest S
    | some Entry.corrupt => markAllLoop caller repoURI rest S
    | some (Entry.good n) =>
      if n.repoURI = repoURI then
        let key := notificationKey repoURI n.threadType n.threadID
        let es := (lookupA S.unread us).getD []
        match lookupA es key with
        | none => .error .renameFail
        | some e =>
          markAllLoop caller repoURI rest
            { S with
              unread := insertA S.unread us (removeA es key),
              readArea := insertA S.readArea us
                (insertA ((lookupA S.readArea us).getD []) key e) }
      else markAllLoop caller repoURI rest S

/-- `MarkAllRead` (fs.go): authenticated caller required; iterate the
caller's unread listing, then remove the unread directory if it is empty. -/
def markAllReadOp (caller : UserSpec) (repoURI : Str) (S : FS) : Except Err FS :=
  if caller.id = 0 then .error .permission
  else
    let us := marshalUserSpec caller
    match markAllLoop caller repoURI ((lookupA S.unread us).getD []) S with
    | .error e => .error e
    | .ok S1 =>
      match lookupA S1.unread us with
      | none => .ok S1
      | some es =>
        if es.isEmpty then .ok { S1 with unread := removeA S1.unread us } else .ok S1

/-- The `Notifications` sort order from the package root:
`Less(i, j) = !s[i].UpdatedAt.Before(s[j].UpdatedAt)`. -/
def notifLess (a b : Notification) : Bool := !(decide (a.updatedAt < b.updatedAt))

/-- A file lookup through an area: directory then file name. -/
def lookupFile (area : Area) (us key : Str) : Option Entry :=
  match lookupA area us with
  | none => none
  | some es => lookupA es key

/-- Whether a modelled operation succeeded. -/
def exOk {α : Type} : Except Err α → Bool
  | .ok _ => true
  | .error _ => false

/-- Adjacent-pairs check of the package sort order: the list is sorted
by `Notifications.Less` (descending update time). -/
def sortedByNotifLess : List Notification → Bool
  | [] => true
  | [_] => true
  | a :: b :: rest => notifLess a b && sortedByNotifLess (b :: rest)

theorem sortedByNotifLess_iff_chain (l : List Notification) :
    sortedByNotifLess l = true ↔ l.Chain' (fun a b => notifLess a b = true) := by
  induction l with
  | nil => simp [sortedByNotifLess]
  | cons a t ih =>
    cases t with
    | nil => simp [sortedByNotifLess]
    | cons b rest =>
      rw [List.chain'_cons]
      simp only [sortedByNotifLess, Bool.and_eq_true]
      exact and_congr Iff.rfl ih

/-! ### Claim theorems -/

/-- C10: for every `UserSpec` with a uint64 id and any domain string
(including the empty domain and domains containing `@`),
`unmarshalUserSpec (marshalUserSpec u)` succeeds and returns `u`. -/
theorem C10_userSpec_roundtrip (u : UserSpec) (h : u.id < 2 ^ 64) :
    unmarshalUserSpec (marshalUserSpec u) = some u :=
  unmarshal_marshalUserSpec h

theorem C10_userSpec_roundtrip_witness :
    (⟨7, ("a@b".toList)⟩ : UserSpec).id < 2 ^ 64 ∧
      unmarshalUserSpec (marshalUserSpec ⟨7, ("a@b".toList)⟩) =
        some (⟨7, ("a@b".toList)⟩ : UserSpec) :=
  ⟨by decide, C10_userSpec_roundtrip ⟨7, ("a@b".toList)⟩ (by decide)⟩

theorem procUnread_exOk_congr (r1 r2 : UserSpec → Option User) (opt : ListOptions) :
    ∀ es, exOk (procUnread r1 opt es) = exOk (procUnread r2 opt es) := by
  intro es
  induction es with
  | nil => rfl
  | cons e rest ih =>
    obtain ⟨name, entry⟩ := e
    cases entry with
    | corrupt => rfl
    | good n =>
      simp only [procUnread]
      cases h1 : procUnread r1 opt rest with
      | error e1 =>
        cases h2 : procUnread r2 opt rest with
        | error e2 => rfl
        | ok t2 => rw [h1, h2] at ih; exact absurd ih (by simp [exOk])
      | ok t1 =>
        cases h2 : procUnread r2 opt rest with
        | error e2 => rw [h1, h2] at ih; exact absurd ih (by simp [exOk])
        | ok t2 => simp [exOk]

theorem procRead_exOk_congr (r1 r2 : UserSpec → Option User) (now : Int)
    (opt : ListOptions) :
    ∀ es, exOk (procRead r1 now opt es) = exOk (procRead r2 now opt es) := by
  intro es
  induction es with
  | nil => rfl
  | cons e rest ih =>
    obtain ⟨name, entry⟩ := e
    cases entry with
    | corrupt => rfl
    | good n =>
      simp only [procRead]
      cases h1 : procRead r1 now opt rest with
      | error e1 =>
        cases h2 : procRead r2 now opt rest with
        | error e2 => rfl
        | ok t2 => rw [h1, h2] at ih; exact absurd ih (by simp [exOk])
      | ok t1 =>
        cases h2 : procRead r2 now opt rest with
        | error e2 => rw [h1, h2] at ih; exact absurd ih (by simp [exOk])
        | ok t2 =>
          obtain ⟨tl1, sv1⟩ := t1
          obtain ⟨tl2, sv2⟩ := t2
          by_cases hexp : retention < now - n.updatedAt
          · simp [hexp, exOk]
          · by_cases hk : repoKeep opt n = true <;> simp [hexp, hk, exOk]

theorem listOp_exOk_congr (r1 r2 : UserSpec → Option User) (now : Int)
    (caller : UserSpec) (opt : ListOptions) (S : FS) :
    exOk (listOp r1 now caller opt S) = exOk (listOp r2 now caller opt S) := by
  by_cases hid : caller.id = 0
  · simp [listOp, hid]
  · simp only [listOp, if_neg hid]
    have hu := procUnread_exOk_congr r1 r2 opt
      ((lookupA S.unread (marshalUserSpec caller)).getD [])
    cases h1 : procUnread r1 opt ((lookupA S.unread (marshalUserSpec caller)).getD []) with
    | error e1 =>
      cases h2 : procUnread r2 opt ((lookupA S.unread (marshalUserSpec caller)).getD []) with
      | error e2 => rfl
      | ok t2 => rw [h1, h2] at hu; exact absurd hu (by simp [exOk])
    | ok t1 =>
      cases h2 : procUnread r2 opt ((lookupA S.unread (marshalUserSpec caller)).getD []) with
      | error e2 => rw [h1, h2] at hu; exact absurd hu (by simp [exOk])
      | ok t2 =>
        by_cases hall : opt.all = true
        · simp only [hall, if_true]
          cases hrd : lookupA S.readArea (marshalUserSpec caller) with
          | none => rfl
          | some es =>
            have hr := procRead_exOk_congr r1 r2 now opt es
            cases hp1 : procRead r1 now opt es with
            | error e1 =>
              cases hp2 : procRead r2 now opt es with
              | error e2 => simp [hp1, hp2, exOk]
              | ok p2 => rw [hp1, hp2] at hr; exact absurd hr (by simp [exOk])
            | ok p1 =>
              cases hp2 : procRead r2 now opt es with
              | error e2 => rw [hp1, hp2] at hr; exact absurd hr (by simp [exOk])
              | ok p2 =>
                obtain ⟨tl1, sv1⟩ := p1
                obtain ⟨tl2, sv2⟩ := p2
                by_cases he1 : sv1.isEmpty <;> by_cases he2 : sv2.isEmpty <;>
                  simp [hp1, hp2, he1, he2, exOk]
        · simp only [Bool.not_eq_true] at hall
          simp [hall, exOk]

/-- C9: actor resolution failure never fails `List` (its success is
independent of the resolver), and a failed resolution is replaced by the
fallback identity with login `"{id}@{domain}"` and empty avatar and
profile URLs. -/
theorem C9_resolution_fallback (r1 r2 : UserSpec → Option User) (uA : UserSpec)
    (now : Int) (caller : UserSpec) (opt : ListOptions) (S : FS)
    (hfail : r1 uA = none) :
    serviceUser r1 uA =
        { spec := uA, login := marshalUserSpec uA, avatarURL := [], htmlURL := [] } ∧
      exOk (listOp r1 now caller opt S) = exOk (listOp r2 now caller opt S) := by
  constructor
  · simp [serviceUser, hfail]
  · exact listOp_exOk_congr r1 r2 now caller opt S

theorem C9_resolution_fallback_witness :
    ((fun _ : UserSpec => (none : Option User)) ⟨3, []⟩ = none) ∧
      (serviceUser (fun _ => none) ⟨3, []⟩ =
          { spec := ⟨3, []⟩, login := marshalUserSpec ⟨3, []⟩, avatarURL := [], htmlURL := [] } ∧
        exOk (listOp (fun _ => none) 0 ⟨3, []⟩ ⟨false, none⟩ ⟨[], [], []⟩) =
          exOk (listOp (fun u => some (serviceUser (fun _ => none) u)) 0 ⟨3, []⟩
            ⟨false, none⟩ ⟨[], [], []⟩)) :=
  ⟨rfl, C9_resolution_fallback (fun _ => none) (fun u => some (serviceUser (fun _ => none) u))
    ⟨3, []⟩ 0 ⟨3, []⟩ ⟨false, none⟩ ⟨[], [], []⟩ rfl⟩

def c1User : UserSpec := ⟨1, []⟩

def c1Old : DiskNotif :=
  ⟨("a".toList), ("issues".toList), 1, [], [], ⟨0, 0, 0⟩, ⟨2, []⟩, 0, [], false⟩

def c1New : DiskNotif :=
  ⟨("a".toList), ("issues".toList), 2, [], [], ⟨0, 0, 0⟩, ⟨2, []⟩, 100, [], false⟩

def c1State : FS :=
  ⟨[(marshalUserSpec c1User,
      [(notificationKey ("a".toList) ("issues".toList) 1, Entry.good c1Old)])],
   [(marshalUserSpec c1User,
      [(notificationKey ("a".toList) ("issues".toList) 2, Entry.good c1New)])],
   []⟩

/-- C1 (counterexample): a state on which `List` succeeds but its output is
not ordered by descending update time: the caller's unread record (updated
at 0) precedes the read record (updated at 100), and `List` does not sort. -/
theorem C1_list_unsorted_counterexample :
    (listOp (fun _ => none) 0 c1User ⟨true, none⟩ c1State).toOption.map
        (fun p => (p.1.map Notification.updatedAt, sortedByNotifLess p.1)) =
      some ([0, 100], false) := by
  decide

/-- C1 (amended): `List` itself returns records in storage iteration order
(unread before read) and does not sort them; the descending-update-time
order is the package's `Notifications` sort order: sorting any `List`
result with the code's `Less` yields a sequence in which each element's
`UpdatedAt` is not before the next one's. -/
theorem C1_sort_by_less_descending (ns : List Notification) :
    sortedByNotifLess (ns.mergeSort notifLess) = true := by
  have hs := @List.sorted_mergeSort Notification notifLess
    (fun a b c => by simp [notifLess]; omega)
    (fun a b => by simp [notifLess]; omega) ns
  rw [sortedByNotifLess_iff_chain]
  exact List.Pairwise.chain' (hs.imp (fun h => by simpa using h))

/-- C7: `MarkRead` with no unread record for the key succeeds and leaves the
state unchanged, and after any successful `MarkRead` a second identical call
succeeds and changes nothing. -/
theorem C7_markRead_idempotent (caller : UserSpec) (repoURI threadType : Str)
    (threadID : Nat) (S S1 : FS) (hauth : caller.id ≠ 0) :
    (lookupFile S.unread (marshalUserSpec caller)
        (notificationKey repoURI threadType threadID) = none →
      markReadOp caller repoURI threadType threadID S = .ok S) ∧
    (markReadOp caller repoURI threadType threadID S = .ok S1 →
      markReadOp caller repoURI threadType threadID S1 = .ok S1) := by
  constructor
  · intro hnone
    simp only [markReadOp, if_neg hauth]
    cases hd : lookupA S.unread (marshalUserSpec caller) with
    | none => rfl
    | some es =>
      simp only [lookupFile, hd] at hnone
      simp [hnone]
  · intro h
    simp only [markReadOp, if_neg hauth] at h ⊢
    cases hd : lookupA S.unread (marshalUserSpec caller) with
    | none =>
      simp only [hd, Except.ok.injEq] at h
      subst h
      simp [hd]
    | some es =>
      simp only [hd] at h
      cases hk : lookupA es (notificationKey repoURI threadType threadID) with
      | none =>
        simp only [hk, Except.ok.injEq] at h
        subst h
        simp [hd, hk]
      | some e =>
        simp only [hk] at h
        by_cases hemp : (removeA es (notificationKey repoURI threadType threadID)).isEmpty
        · rw [if_pos hemp] at h
          simp only [Except.ok.injEq] at h
          subst h
          simp [lookupA_removeA_self]
        · rw [if_neg hemp] at h
          simp only [Except.ok.injEq] at h
          subst h
          simp [lookupA_insertA_self, lookupA_removeA_self]

theorem C7_markRead_idempotent_witness :
    (⟨1, []⟩ : UserSpec).id ≠ 0 ∧
      ((lookupFile (⟨[(marshalUserSpec ⟨1, []⟩, [])], [], []⟩ : FS).unread
          (marshalUserSpec ⟨1, []⟩) (notificationKey [] [] 0) = none →
        markReadOp ⟨1, []⟩ [] [] 0 ⟨[(marshalUserSpec ⟨1, []⟩, [])], [], []⟩ =
          .ok ⟨[(marshalUserSpec ⟨1, []⟩, [])], [], []⟩) ∧
      (markReadOp ⟨1, []⟩ [] [] 0 ⟨[(marshalUserSpec ⟨1, []⟩, [])], [], []⟩ =
          .ok ⟨[(marshalUserSpec ⟨1, []⟩, [])], [], []⟩ →
        markReadOp ⟨1, []⟩ [] [] 0 ⟨[(marshalUserSpec ⟨1, []⟩, [])], [], []⟩ =
          .ok ⟨[(marshalUserSpec ⟨1, []⟩, [])], [], []⟩)) :=
  ⟨by decide,
    C7_markRead_idempotent ⟨1, []⟩ [] [] 0 ⟨[(marshalUserSpec ⟨1, []⟩, [])], [], []⟩
      ⟨[(marshalUserSpec ⟨1, []⟩, [])], [], []⟩ (by decide)⟩

theorem lookupA_mem {κ α : Type} [DecidableEq κ] {m : List (κ × α)} {k : κ} {v : α}
    (h : lookupA m k = some v) : (k, v) ∈ m := by
  induction m with
  | nil => simp [lookupA] at h
  | cons e rest ih =>
    obtain ⟨k', v'⟩ := e
    by_cases hk : k' = k
    · subst hk
      simp [lookupA] at h
      subst h
      exact List.mem_cons_self _ _
    · simp only [lookupA, if_neg hk] at h
      exact List.mem_cons_of_mem _ (ih h)

theorem notifyStep_skip (caller : UserSpec) (repoURI threadType : Str) (threadID : Nat)
    (nr : NotificationRequest) (S : FS) (sub : UserSpec × Bool) (h : sub.1 = caller) :
    notifyStep caller repoURI threadType threadID nr S sub = S := by
  simp [notifyStep, h]

theorem notifyStep_preserves (caller : UserSpec) (repoURI threadType : Str) (threadID : Nat)
    (nr : NotificationRequest) (S : FS) (sub : UserSpec × Bool) {v : Str}
    (hv : v ≠ marshalUserSpec sub.1) :
    lookupA (notifyStep caller repoURI threadType threadID nr S sub).unread v =
        lookupA S.unread v ∧
      lookupA (notifyStep caller repoURI threadType threadID nr S sub).readArea v =
        lookupA S.readArea v := by
  by_cases hc : sub.1 = caller
  · rw [notifyStep_skip caller repoURI threadType threadID nr S sub hc]
    exact ⟨rfl, rfl⟩
  · simp only [notifyStep, if_neg hc]
    cases hrd : lookupA S.readArea (marshalUserSpec sub.1) with
    | none =>
      exact ⟨lookupA_insertA_ne _ _ hv, rfl⟩
    | some es =>
      exact ⟨lookupA_insertA_ne _ _ hv, lookupA_insertA_ne _ _ hv⟩

theorem notifyStep_writes (caller : UserSpec) (repoURI threadType : Str) (threadID : Nat)
    (nr : NotificationRequest) (S : FS) (sub : UserSpec × Bool) (hne : sub.1 ≠ caller) :
    lookupFile (notifyStep caller repoURI threadType threadID nr S sub).unread
        (marshalUserSpec sub.1) (notificationKey repoURI threadType threadID) =
      some (Entry.good (notifyRecord repoURI threadType threadID nr sub.2)) ∧
    lookupFile (notifyStep caller repoURI threadType threadID nr S sub).readArea
        (marshalUserSpec sub.1) (notificationKey repoURI threadType threadID) = none := by
  simp only [notifyStep, if_neg hne]
  constructor
  · cases hrd : lookupA S.readArea (marshalUserSpec sub.1) with
    | none => simp [lookupFile, lookupA_insertA_self]
    | some es => simp [lookupFile, lookupA_insertA_self]
  · cases hrd : lookupA S.readArea (marshalUserSpec sub.1) with
    | none => simp [lookupFile, hrd]
    | some es => simp [lookupFile, lookupA_insertA_self, lookupA_removeA_self]

theorem notifyFold_caller (caller : UserSpec) (repoURI threadType : Str) (threadID : Nat)
    (nr : NotificationRequest) :
    ∀ (l : List (UserSpec × Bool)) (S : FS),
      lookupA ((l.foldl (notifyStep caller repoURI threadType threadID nr) S).unread)
          (marshalUserSpec caller) = lookupA S.unread (marshalUserSpec caller) ∧
      lookupA ((l.foldl (notifyStep caller repoURI threadType threadID nr) S).readArea)
          (marshalUserSpec caller) = lookupA S.readArea (marshalUserSpec caller) := by
  intro l
  induction l with
  | nil => intro S; exact ⟨rfl, rfl⟩
  | cons sub rest ih =>
    intro S
    simp only [List.foldl_cons]
    by_cases hc : sub.1 = caller
    · rw [notifyStep_skip caller repoURI threadType threadID nr S sub hc]
      exact ih S
    · have hm : marshalUserSpec caller ≠ marshalUserSpec sub.1 := by
        intro he
        exact hc (marshalUserSpec_inj he.symm)
      obtain ⟨h1, h2⟩ := notifyStep_preserves caller repoURI threadType threadID nr S sub hm
      obtain ⟨g1, g2⟩ := ih (notifyStep caller repoURI threadType threadID nr S sub)
      exact ⟨g1.trans h1, g2.trans h2⟩

theorem notifyFold_preserves_user (caller : UserSpec) (repoURI threadType : Str)
    (threadID : Nat) (nr : NotificationRequest) (u : UserSpec) :
    ∀ (l : List (UserSpec × Bool)) (S : FS), (∀ e ∈ l, e.1 ≠ u) →
      lookupA ((l.foldl (notifyStep caller repoURI threadType threadID nr) S).unread)
          (marshalUserSpec u) = lookupA S.unread (marshalUserSpec u) ∧
      lookupA ((l.foldl (notifyStep caller repoURI threadType threadID nr) S).readArea)
          (marshalUserSpec u) = lookupA S.readArea (marshalUserSpec u) := by
  intro l
  induction l with
  | nil => intro S _; exact ⟨rfl, rfl⟩
  | cons sub rest ih =>
    intro S hl
    simp only [List.foldl_cons]
    have hne : sub.1 ≠ u := hl sub (List.mem_cons_self _ _)
    have hm : marshalUserSpec u ≠ marshalUserSpec sub.1 := by
      intro he
      exact hne (marshalUserSpec_inj he).symm
    obtain ⟨h1, h2⟩ := notifyStep_preserves caller repoURI threadType threadID nr S sub hm
    obtain ⟨g1, g2⟩ := ih (notifyStep caller repoURI threadType threadID nr S sub)
      (fun e he => hl e (List.mem_cons_of_mem _ he))
    exact ⟨g1.trans h1, g2.trans h2⟩

theorem notifyFold_writes (caller : UserSpec) (repoURI threadType : Str) (threadID : Nat)
    (nr : NotificationRequest) (u : UserSpec) (p : Bool) :
    ∀ (l : List (UserSpec × Bool)) (S : FS), (u, p) ∈ l → u ≠ caller →
      (l.map Prod.fst).Nodup →
      lookupFile ((l.foldl (notifyStep caller repoURI threadType threadID nr) S).unread)
          (marshalUserSpec u) (notificationKey repoURI threadType threadID) =
        some (Entry.good (notifyRecord repoURI threadType threadID nr p)) ∧
      lookupFile ((l.foldl (notifyStep caller repoURI threadType threadID nr) S).readArea)
          (marshalUserSpec u) (notificationKey repoURI threadType threadID) = none := by
  intro l
  induction l with
  | nil => intro S hmem; simp at hmem
  | cons sub rest ih =>
    intro S hmem hne hnd
    obtain ⟨su, sp⟩ := sub
    simp only [List.foldl_cons]
    simp only [List.map_cons, List.nodup_cons] at hnd
    rcases List.mem_cons.mp hmem with heq | hmem'
    · rw [Prod.mk.injEq] at heq
      obtain ⟨hu, hp⟩ := heq
      subst hu
      subst hp
      have hrest : ∀ e ∈ rest, e.1 ≠ u := by
        intro e he hc
        exact hnd.1 (List.mem_map.mpr ⟨e, he, hc⟩)
      obtain ⟨w1, w2⟩ := notifyStep_writes caller repoURI threadType threadID nr S (u, p) hne
      obtain ⟨p1, p2⟩ := notifyFold_preserves_user caller repoURI threadType threadID nr u
        rest (notifyStep caller repoURI threadType threadID nr S (u, p)) hrest
      constructor
      · rw [lookupFile, p1]
        exact w1
      · rw [lookupFile, p2]
        exact w2
    · exact ih (notifyStep caller repoURI threadType threadID nr S (su, sp)) hmem' hne hnd.2

theorem collectSubs_cons_dir (name : Str) (isDir : Bool) (rest : List (Str × Bool))
    (p : Bool) (m : List (UserSpec × Bool)) (hd : isDir = true) :
    collectSubs ((name, isDir) :: rest) p m = collectSubs rest p m := by
  simp [collectSubs, List.foldl_cons, hd]

theorem collectSubs_cons_noparse (name : Str) (isDir : Bool) (rest : List (Str × Bool))
    (p : Bool) (m : List (UserSpec × Bool)) (hd : ¬isDir = true)
    (hp : unmarshalUserSpec name = none) :
    collectSubs ((name, isDir) :: rest) p m = collectSubs rest p m := by
  simp [collectSubs, List.foldl_cons, hd, hp]

theorem collectSubs_cons_parse (name : Str) (isDir : Bool) (rest : List (Str × Bool))
    (p : Bool) (m : List (UserSpec × Bool)) (u' : UserSpec) (hd : ¬isDir = true)
    (hp : unmarshalUserSpec name = some u') :
    collectSubs ((name, isDir) :: rest) p m = collectSubs rest p (insertA m u' p) := by
  simp [collectSubs, List.foldl_cons, hd, hp]

theorem collectSubs_nodup (entries : List (Str × Bool)) (p : Bool) :
    ∀ m : List (UserSpec × Bool), (m.map Prod.fst).Nodup →
      ((collectSubs entries p m).map Prod.fst).Nodup := by
  induction entries with
  | nil => intro m h; exact h
  | cons e rest ih =>
    intro m h
    obtain ⟨name, isDir⟩ := e
    by_cases hd : isDir = true
    · rw [collectSubs_cons_dir name isDir rest p m hd]
      exact ih m h
    · cases hp : unmarshalUserSpec name with
      | none =>
        rw [collectSubs_cons_noparse name isDir rest p m hd hp]
        exact ih m h
      | some u =>
        rw [collectSubs_cons_parse name isDir rest p m u hd hp]
        exact ih (insertA m u p) (keys_insertA_nodup m u p h)

theorem collectSubs_stable (entries : List (Str × Bool)) (p : Bool) :
    ∀ (m : List (UserSpec × Bool)) (u : UserSpec), lookupA m u = some p →
      lookupA (collectSubs entries p m) u = some p := by
  induction entries with
  | nil => intro m u h; exact h
  | cons e rest ih =>
    intro m u h
    obtain ⟨name, isDir⟩ := e
    by_cases hd : isDir = true
    · rw [collectSubs_cons_dir name isDir rest p m hd]
      exact ih m u h
    · cases hp : unmarshalUserSpec name with
      | none =>
        rw [collectSubs_cons_noparse name isDir rest p m hd hp]
        exact ih m u h
      | some u' =>
        rw [collectSubs_cons_parse name isDir rest p m u' hd hp]
        by_cases hu : u' = u
        · subst hu
          exact ih (insertA m u' p) u' (lookupA_insertA_self m u' p)
        · exact ih (insertA m u' p) u ((lookupA_insertA_ne m p (Ne.symm hu)).trans h)

theorem collectSubs_hits (entries : List (Str × Bool)) (p : Bool) :
    ∀ (m : List (UserSpec × Bool)) (u : UserSpec) (name : Str),
      (name, false) ∈ entries → unmarshalUserSpec name = some u →
      lookupA (collectSubs entries p m) u = some p := by
  induction entries with
  | nil => intro m u name hmem; simp at hmem
  | cons e rest ih =>
    intro m u name hmem hparse
    obtain ⟨name0, isDir0⟩ := e
    rcases List.mem_cons.mp hmem with heq | hmem'
    · rw [Prod.mk.injEq] at heq
      obtain ⟨h1, h2⟩ := heq
      subst h1
      simp only [collectSubs, List.foldl_cons, ← h2, Bool.false_eq_true, if_false, hparse]
      exact collectSubs_stable rest p (insertA m u p) u (lookupA_insertA_self m u p)
    · by_cases hd : isDir0
      · simpa [collectSubs, List.foldl_cons, hd] using ih m u name hmem' hparse
      · cases hp0 : unmarshalUserSpec name0 with
        | none => simpa [collectSubs, List.foldl_cons, hd, hp0] using ih m u name hmem' hparse
        | some u0 =>
          simpa [collectSubs, List.foldl_cons, hd, hp0] using
            ih (insertA m u0 p) u name hmem' hparse

theorem collectSubs_misses (entries : List (Str × Bool)) (p : Bool) :
    ∀ (m : List (UserSpec × Bool)) (u : UserSpec),
      (∀ e ∈ entries, e.2 = true ∨ unmarshalUserSpec e.1 ≠ some u) →
      lookupA (collectSubs entries p m) u = lookupA m u := by
  induction entries with
  | nil => intro m u _; rfl
  | cons e rest ih =>
    intro m u hmiss
    obtain ⟨name0, isDir0⟩ := e
    have hrest : ∀ e ∈ rest, e.2 = true ∨ unmarshalUserSpec e.1 ≠ some u :=
      fun e he => hmiss e (List.mem_cons_of_mem _ he)
    by_cases hd : isDir0
    · simpa [collectSubs, List.foldl_cons, hd] using ih m u hrest
    · cases hp0 : unmarshalUserSpec name0 with
      | none => simpa [collectSubs, List.foldl_cons, hd, hp0] using ih m u hrest
      | some u0 =>
        have hne : u0 ≠ u := by
          rcases hmiss (name0, isDir0) (List.mem_cons_self _ _) with h | h
          · exact absurd h (by simpa using hd)
          · intro hc
            rw [hc] at hp0
            exact h hp0
        have := ih (insertA m u0 p) u hrest
        rw [lookupA_insertA_ne m p (fun hc => hne hc.symm)] at this
        simpa [collectSubs, List.foldl_cons, hd, hp0] using this

theorem listOp_ns_congr (resolver : UserSpec → Option User) (now : Int)
    (u : UserSpec) (opt : ListOptions) (S1 S2 : FS)
    (h1 : lookupA S1.unread (marshalUserSpec u) = lookupA S2.unread (marshalUserSpec u))
    (h2 : lookupA S1.readArea (marshalUserSpec u) = lookupA S2.readArea (marshalUserSpec u)) :
    (listOp resolver now u opt S1).toOption.map Prod.fst =
      (listOp resolver now u opt S2).toOption.map Prod.fst := by
  by_cases hid : u.id = 0
  · simp [listOp, hid]
  · simp only [listOp, if_neg hid, h1, h2]
    cases hpu : procUnread resolver opt ((lookupA S2.unread (marshalUserSpec u)).getD []) with
    | error e => rfl
    | ok ns1 =>
      by_cases hall : opt.all = true
      · simp only [hall, if_true]
        split
        · rfl
        · split
          · rfl
          · split <;> rfl
      · simp only [Bool.not_eq_true] at hall
        simp only [hall, Bool.false_eq_true, if_false]
        rfl

/-- C3: a successful `Notify` performed by `A` never writes into `A`'s own
unread (or read) area — even when `A` is among the repo watchers or thread
subscribers — so a subsequent `List` by `A` returns the same notifications
as before the `Notify`. -/
theorem C3_notify_excludes_actor (A : UserSpec) (repoURI threadType : Str)
    (threadID : Nat) (nr : NotificationRequest) (S S' : FS)
    (resolver : UserSpec → Option User) (now : Int) (opt : ListOptions)
    (h : notifyOp A repoURI threadType threadID nr S = .ok S') :
    lookupA S'.unread (marshalUserSpec A) = lookupA S.unread (marshalUserSpec A) ∧
      lookupA S'.readArea (marshalUserSpec A) = lookupA S.readArea (marshalUserSpec A) ∧
      (listOp resolver now A opt S').toOption.map Prod.fst =
        (listOp resolver now A opt S).toOption.map Prod.fst := by
  by_cases hid : A.id = 0
  · simp [notifyOp, hid] at h
  · simp only [notifyOp, if_neg hid, Except.ok.injEq] at h
    subst h
    obtain ⟨h1, h2⟩ := notifyFold_caller A repoURI threadType threadID nr
      (subscriberMap S repoURI threadType threadID) S
    exact ⟨h1, h2, listOp_ns_congr resolver now A opt _ S h1 h2⟩

theorem notify_delivers (A U : UserSpec) (p : Bool) (repoURI threadType : Str)
    (threadID : Nat) (nr : NotificationRequest) (S S' : FS)
    (hmem : (U, p) ∈ subscriberMap S repoURI threadType threadID)
    (hne : U ≠ A)
    (h : notifyOp A repoURI threadType threadID nr S = .ok S') :
    lookupFile S'.unread (marshalUserSpec U) (notificationKey repoURI threadType threadID) =
        some (Entry.good (notifyRecord repoURI threadType threadID nr p)) ∧
      lookupFile S'.readArea (marshalUserSpec U)
        (notificationKey repoURI threadType threadID) = none := by
  by_cases hid : A.id = 0
  · simp [notifyOp, hid] at h
  · simp only [notifyOp, if_neg hid, Except.ok.injEq] at h
    subst h
    exact notifyFold_writes A repoURI threadType threadID nr U p
      (subscriberMap S repoURI threadType threadID) S hmem hne
      (collectSubs_nodup _ true _ (collectSubs_nodup _ false [] (by simp)))

/-- C5: a successful `Notify` delivering to subscriber `U` (who is not the
actor) leaves `U`'s unread area holding the freshly written record for the
thread key and removes any read-area record for that key, so the thread
resurfaces as unread even after an earlier `MarkRead`. -/
theorem C5_renotify_resurfaces (A U : UserSpec) (p : Bool) (repoURI threadType : Str)
    (threadID : Nat) (nr : NotificationRequest) (S S' : FS)
    (hmem : (U, p) ∈ subscriberMap S repoURI threadType threadID)
    (hne : U ≠ A)
    (h : notifyOp A repoURI threadType threadID nr S = .ok S') :
    lookupFile S'.unread (marshalUserSpec U) (notificationKey repoURI threadType threadID) =
        some (Entry.good (notifyRecord repoURI threadType threadID nr p)) ∧
      lookupFile S'.readArea (marshalUserSpec U)
        (notificationKey repoURI threadType threadID) = none :=
  notify_delivers A U p repoURI threadType threadID nr S S' hmem hne h

/-- C4: for a successful `Notify`, a user present among the thread-scope
subscriber entries receives a record with `participating = true`; a user
present only among the repo-scope watcher entries (no thread entry parses
to them) receives `participating = false`. -/
theorem C4_participating_precedence (A U : UserSpec) (repoURI threadType : Str)
    (threadID : Nat) (nr : NotificationRequest) (S S' : FS)
    (hU : U.id < 2 ^ 64) (hne : U ≠ A)
    (h : notifyOp A repoURI threadType threadID nr S = .ok S') :
    ((marshalUserSpec U, false) ∈
        (lookupA S.subs (subscribersDirPath repoURI threadType threadID)).getD [] →
      lookupFile S'.unread (marshalUserSpec U) (notificationKey repoURI threadType threadID) =
        some (Entry.good (notifyRecord repoURI threadType threadID nr true))) ∧
    ((marshalUserSpec U, false) ∈ (lookupA S.subs (subscribersDirPath repoURI [] 0)).getD [] ∧
        ((lookupA S.subs (subscribersDirPath repoURI threadType threadID)).getD []).all
          (fun e => e.2 || !(decide (unmarshalUserSpec e.1 = some U))) = true →
      lookupFile S'.unread (marshalUserSpec U) (notificationKey repoURI threadType threadID) =
        some (Entry.good (notifyRecord repoURI threadType threadID nr false))) := by
  have hparse : unmarshalUserSpec (marshalUserSpec U) = some U :=
    unmarshal_marshalUserSpec hU
  constructor
  · intro hmemT
    have hlk : lookupA (subscriberMap S repoURI threadType threadID) U = some true :=
      collectSubs_hits _ true _ U (marshalUserSpec U) hmemT hparse
    exact (notify_delivers A U true repoURI threadType threadID nr S S'
      (lookupA_mem hlk) hne h).1
  · rintro ⟨hmemW, hallT⟩
    have hbase : lookupA (collectSubs
        ((lookupA S.subs (subscribersDirPath repoURI [] 0)).getD []) false []) U =
          some false :=
      collectSubs_hits _ false [] U (marshalUserSpec U) hmemW hparse
    have hmiss : ∀ e ∈ (lookupA S.subs (subscribersDirPath repoURI threadType threadID)).getD [],
        e.2 = true ∨ unmarshalUserSpec e.1 ≠ some U := by
      intro e he
      have := (List.all_eq_true.mp hallT) e he
      rcases Bool.or_eq_true_iff.mp this with h1 | h1
      · exact Or.inl h1
      · exact Or.inr (by simpa using h1)
    have hlk : lookupA (subscriberMap S repoURI threadType threadID) U = some false := by
      rw [subscriberMap, collectSubs_misses _ true _ U hmiss]
      exact hbase
    exact (notify_delivers A U false repoURI threadType threadID nr S S'
      (lookupA_mem hlk) hne h).1

def wA : UserSpec := ⟨2, ("example.org".toList)⟩

def wU : UserSpec := ⟨1, ("example.org".toList)⟩

def wRepo : Str := "repo".toList

def wType : Str := "issues".toList

def wNr : NotificationRequest := ⟨("Issue 1".toList), [], ⟨0, 0, 0⟩, wU, 5, []⟩

def wSubs : FS :=
  ⟨[], [],
   [(subscribersDirPath wRepo [] 0,
      [(marshalUserSpec wU, false), (marshalUserSpec wA, false)]),
    (subscribersDirPath wRepo wType 1, [(marshalUserSpec wU, false)])]⟩

def wAfterNotify : FS :=
  match notifyOp wA wRepo wType 1 wNr wSubs with
  | .ok s => s
  | .error _ => wSubs

theorem C3_notify_excludes_actor_witness :
    notifyOp wA wRepo wType 1 wNr wSubs = .ok wAfterNotify ∧
      (lookupA wAfterNotify.unread (marshalUserSpec wA) =
          lookupA wSubs.unread (marshalUserSpec wA) ∧
        lookupA wAfterNotify.readArea (marshalUserSpec wA) =
          lookupA wSubs.readArea (marshalUserSpec wA) ∧
        (listOp (fun _ => none) 0 wA ⟨true, none⟩ wAfterNotify).toOption.map Prod.fst =
          (listOp (fun _ => none) 0 wA ⟨true, none⟩ wSubs).toOption.map Prod.fst) :=
  ⟨rfl, C3_notify_excludes_actor wA wRepo wType 1 wNr wSubs wAfterNotify
    (fun _ => none) 0 ⟨true, none⟩ rfl⟩

theorem C5_renotify_resurfaces_witness :
    ((wU, true) ∈ subscriberMap wSubs wRepo wType 1 ∧ wU ≠ wA ∧
        notifyOp wA wRepo wType 1 wNr wSubs = .ok wAfterNotify) ∧
      (lookupFile wAfterNotify.unread (marshalUserSpec wU) (notificationKey wRepo wType 1) =
          some (Entry.good (notifyRecord wRepo wType 1 wNr true)) ∧
        lookupFile wAfterNotify.readArea (marshalUserSpec wU)
          (notificationKey wRepo wType 1) = none) :=
  ⟨⟨by decide, by decide, rfl⟩,
    C5_renotify_resurfaces wA wU true wRepo wType 1 wNr wSubs wAfterNotify
      (by decide) (by decide) rfl⟩

theorem C4_participating_precedence_witness :
    (wU.id < 2 ^ 64 ∧ wU ≠ wA ∧ notifyOp wA wRepo wType 1 wNr wSubs = .ok wAfterNotify) ∧
      (((marshalUserSpec wU, false) ∈
          (lookupA wSubs.subs (subscribersDirPath wRepo wType 1)).getD [] →
        lookupFile wAfterNotify.unread (marshalUserSpec wU) (notificationKey wRepo wType 1) =
          some (Entry.good (notifyRecord wRepo wType 1 wNr true))) ∧
      ((marshalUserSpec wU, false) ∈ (lookupA wSubs.subs (subscribersDirPath wRepo [] 0)).getD [] ∧
          ((lookupA wSubs.subs (subscribersDirPath wRepo wType 1)).getD []).all
            (fun e => e.2 || !(decide (unmarshalUserSpec e.1 = some wU))) = true →
        lookupFile wAfterNotify.unread (marshalUserSpec wU) (notificationKey wRepo wType 1) =
          some (Entry.good (notifyRecord wRepo wType 1 wNr false)))) :=
  ⟨⟨by decide, by decide, rfl⟩,
    C4_participating_precedence wA wU wRepo wType 1 wNr wSubs wAfterNotify
      (by decide) (by decide) rfl⟩

/-- The read-area survivor predicate of `List`: a record survives pruning
iff it decodes and is within the retention window. -/
def survives (now : Int) (e : Str × Entry) : Bool :=
  match e.2 with
  | Entry.good n => !(decide (retention < now - n.updatedAt))
  | Entry.corrupt => false

theorem procRead_surv (resolver : UserSpec → Option User) (now : Int) (opt : ListOptions) :
    ∀ (es : List (Str × Entry)) (tail : List Notification) (surv : List (Str × Entry)),
      procRead resolver now opt es = .ok (tail, surv) → surv = es.filter (survives now) := by
  intro es
  induction es with
  | nil =>
    intro tail surv h
    simp only [procRead, Except.ok.injEq, Prod.mk.injEq] at h
    simp [← h.2]
  | cons e rest ih =>
    intro tail surv h
    obtain ⟨name, entry⟩ := e
    cases entry with
    | corrupt => simp [procRead] at h
    | good n =>
      simp only [procRead] at h
      cases hr : procRead resolver now opt rest with
      | error e1 => rw [hr] at h; simp at h
      | ok pr =>
        obtain ⟨tl, sv⟩ := pr
        rw [hr] at h
        by_cases hexp : retention < now - n.updatedAt
        · simp only [if_pos hexp, Except.ok.injEq, Prod.mk.injEq] at h
          rw [List.filter_cons]
          have hc : survives now (name, Entry.good n) = false := by simp [survives, hexp]
          rw [hc]
          simp only [Bool.false_eq_true, if_false]
          rw [← h.2]
          exact ih tl sv hr
        · by_cases hk : repoKeep opt n = true
          · simp only [if_neg hexp, hk, if_true, Except.ok.injEq, Prod.mk.injEq] at h
            rw [List.filter_cons]
            have hc : survives now (name, Entry.good n) = true := by simp [survives, hexp]
            rw [hc]
            simp only [if_true]
            rw [← h.2]
            exact congrArg _ (ih tl sv hr)
          · simp only [if_neg hexp, hk, Bool.false_eq_true, if_false, Except.ok.injEq,
              Prod.mk.injEq] at h
            rw [List.filter_cons]
            have hc : survives now (name, Entry.good n) = true := by simp [survives, hexp]
            rw [hc]
            simp only [if_true]
            rw [← h.2]
            exact congrArg _ (ih tl sv hr)

theorem procRead_tail_bound (resolver : UserSpec → Option User) (now : Int)
    (opt : ListOptions) :
    ∀ (es : List (Str × Entry)) (tail : List Notification) (surv : List (Str × Entry)),
      procRead resolver now opt es = .ok (tail, surv) →
      tail.all (fun nf => decide (now - nf.updatedAt ≤ retention)) = true := by
  intro es
  induction es with
  | nil =>
    intro tail surv h
    simp only [procRead, Except.ok.injEq, Prod.mk.injEq] at h
    simp [← h.1]
  | cons e rest ih =>
    intro tail surv h
    obtain ⟨name, entry⟩ := e
    cases entry with
    | corrupt => simp [procRead] at h
    | good n =>
      simp only [procRead] at h
      cases hr : procRead resolver now opt rest with
      | error e1 => rw [hr] at h; simp at h
      | ok pr =>
        obtain ⟨tl, sv⟩ := pr
        rw [hr] at h
        by_cases hexp : retention < now - n.updatedAt
        · simp only [if_pos hexp, Except.ok.injEq, Prod.mk.injEq] at h
          rw [← h.1]
          exact ih tl sv hr
        · by_cases hk : repoKeep opt n = true
          · simp only [if_neg hexp, hk, if_true, Except.ok.injEq, Prod.mk.injEq] at h
            rw [← h.1]
            simp only [List.all_cons, Bool.and_eq_true]
            refine ⟨?_, ih tl sv hr⟩
            simp only [toNotification, decide_eq_true_eq]
            omega
          · simp only [if_neg hexp, hk, Bool.false_eq_true, if_false, Except.ok.injEq,
              Prod.mk.injEq] at h
            rw [← h.1]
            exact ih tl sv hr

theorem procUnread_read_false (resolver : UserSpec → Option User) (opt : ListOptions) :
    ∀ (es : List (Str × Entry)) (ns : List Notification),
      procUnread resolver opt es = .ok ns → ns.all (fun nf => !nf.read) = true := by
  intro es
  induction es with
  | nil =>
    intro ns h
    simp only [procUnread, Except.ok.injEq] at h
    simp [← h]
  | cons e rest ih =>
    intro ns h
    obtain ⟨name, entry⟩ := e
    cases entry with
    | corrupt => simp [procUnread] at h
    | good n =>
      simp only [procUnread] at h
      cases hr : procUnread resolver opt rest with
      | error e1 => rw [hr] at h; simp at h
      | ok tl =>
        rw [hr] at h
        simp only [Except.ok.injEq] at h
        by_cases hk : repoKeep opt n = true
        · rw [← h]
          simp only [hk, if_true, List.all_cons, Bool.and_eq_true]
          exact ⟨by simp [toNotification], ih tl hr⟩
        · rw [← h]
          simp only [hk, Bool.false_eq_true, if_false]
          exact ih tl hr

theorem lookupA_none_of_not_mem {κ α : Type} [DecidableEq κ] {m : List (κ × α)} {k : κ}
    (h : k ∉ m.map Prod.fst) : lookupA m k = none := by
  induction m with
  | nil => rfl
  | cons e rest ih =>
    obtain ⟨k', v'⟩ := e
    simp only [List.map_cons, List.mem_cons] at h
    push_neg at h
    simp only [lookupA, if_neg (fun hc : k' = k => h.1 hc.symm)]
    exact ih h.2

theorem lookupA_filter_of_unique {κ α : Type} [DecidableEq κ] {m : List (κ × α)} {k : κ}
    {v : α} {pred : κ × α → Bool}
    (hnd : (m.map Prod.fst).Nodup) (hlk : lookupA m k = some v) (hp : pred (k, v) = false) :
    lookupA (m.filter pred) k = none := by
  induction m with
  | nil => simp [lookupA] at hlk
  | cons e rest ih =>
    obtain ⟨k', v'⟩ := e
    simp only [List.map_cons, List.nodup_cons] at hnd
    by_cases hk : k' = k
    · subst hk
      simp [lookupA] at hlk
      subst hlk
      rw [List.filter_cons, hp]
      apply lookupA_none_of_not_mem
      intro hmem
      rcases List.mem_map.mp hmem with ⟨e2, he2, hfst⟩
      exact hnd.1 (List.mem_map.mpr ⟨e2, List.mem_of_mem_filter he2, hfst⟩)
    · simp only [lookupA, if_neg hk] at hlk
      rw [List.filter_cons]
      by_cases hpred : pred (k', v') = true
      · rw [hpred]
        simp only [if_true, lookupA, if_neg hk]
        exact ih hnd.2 hlk
      · simp only [Bool.not_eq_true] at hpred
        rw [hpred]
        simp only [Bool.false_eq_true, if_false]
        exact ih hnd.2 hlk

theorem lookupFile_some_dir {area : Area} {us : Str} {es : List (Str × Entry)}
    (hd : lookupA area us = some es) (key : Str) :
    lookupFile area us key = lookupA es key := by
  simp [lookupFile, hd]

theorem lookupFile_none_dir {area : Area} {us : Str}
    (hd : lookupA area us = none) (key : Str) :
    lookupFile area us key = none := by
  simp [lookupFile, hd]

/-- C6: a successful `List` with include-read set deletes every read-area
record of the caller older than the retention window and returns no read
notification older than that window. -/
theorem C6_retention_expiry (resolver : UserSpec → Option User) (now : Int)
    (caller : UserSpec) (repoFilter : Option Str) (S : FS) (ns : List Notification)
    (S' : FS) (name : Str) (n : DiskNotif)
    (hnd : (((lookupA S.readArea (marshalUserSpec caller)).getD []).map Prod.fst).Nodup)
    (h : listOp resolver now caller ⟨true, repoFilter⟩ S = .ok (ns, S'))
    (hfile : lookupFile S.readArea (marshalUserSpec caller) name = some (Entry.good n))
    (hold : retention < now - n.updatedAt) :
    lookupFile S'.readArea (marshalUserSpec caller) name = none ∧
      ns.all (fun nf => !nf.read || decide (now - nf.updatedAt ≤ retention)) = true := by
  by_cases hid : caller.id = 0
  · simp [listOp, hid] at h
  · simp only [listOp, if_neg hid] at h
    cases hrd : lookupA S.readArea (marshalUserSpec caller) with
    | none => rw [lookupFile_none_dir hrd] at hfile; simp at hfile
    | some es =>
      rw [lookupFile_some_dir hrd] at hfile
      rw [hrd] at hnd
      simp only [Option.getD_some] at hnd
      cases hpu : procUnread resolver ⟨true, repoFilter⟩
          ((lookupA S.unread (marshalUserSpec caller)).getD []) with
      | error e1 => rw [hpu] at h; simp at h
      | ok ns1 =>
        simp only [hpu, if_true, hrd] at h
        cases hpr : procRead resolver now ⟨true, repoFilter⟩ es with
        | error e1 => simp only [hpr] at h; simp at h
        | ok pr =>
          obtain ⟨ns2, surv⟩ := pr
          simp only [hpr] at h
          have hsurv : surv = es.filter (survives now) :=
            procRead_surv resolver now ⟨true, repoFilter⟩ es ns2 surv hpr
          have hgone : lookupA surv name = none := by
            rw [hsurv]
            exact lookupA_filter_of_unique hnd hfile
              (by simp [survives, hold])
          by_cases hemp : surv.isEmpty
          · rw [if_pos hemp] at h
            simp only [Except.ok.injEq, Prod.mk.injEq] at h
            obtain ⟨hns, hS'⟩ := h
            constructor
            · rw [← hS']
              simp [lookupFile, lookupA_removeA_self]
            · rw [← hns, List.all_append, Bool.and_eq_true]
              constructor
              · have := procUnread_read_false resolver ⟨true, repoFilter⟩ _ ns1 hpu
                rw [List.all_eq_true] at this ⊢
                intro nf hnf
                simp [this nf hnf]
              · have := procRead_tail_bound resolver now ⟨true, repoFilter⟩ es ns2 surv hpr
                rw [List.all_eq_true] at this ⊢
                intro nf hnf
                have hb := of_decide_eq_true (this nf hnf)
                simp only [Bool.or_eq_true, decide_eq_true_eq]
                exact Or.inr hb
          · rw [if_neg hemp] at h
            simp only [Except.ok.injEq, Prod.mk.injEq] at h
            obtain ⟨hns, hS'⟩ := h
            constructor
            · rw [← hS']
              simp only [lookupFile, lookupA_insertA_self]
              exact hgone
            · rw [← hns, List.all_append, Bool.and_eq_true]
              constructor
              · have := procUnread_read_false resolver ⟨true, repoFilter⟩ _ ns1 hpu
                rw [List.all_eq_true] at this ⊢
                intro nf hnf
                simp [this nf hnf]
              · have := procRead_tail_bound resolver now ⟨true, repoFilter⟩ es ns2 surv hpr
                rw [List.all_eq_true] at this ⊢
                intro nf hnf
                have hb := of_decide_eq_true (this nf hnf)
                simp only [Bool.or_eq_true, decide_eq_true_eq]
                exact Or.inr hb

/-! ### The per-key uniqueness invariant (C2) -/

/-- The store invariant: directory names are unique in each area, file names
are unique in each directory, and no (user, key) has a record in both the
unread and the read area. -/
def Inv (S : FS) : Prop :=
  (S.unread.map Prod.fst).Nodup ∧ (S.readArea.map Prod.fst).Nodup ∧
  (∀ d ∈ S.unread, (d.2.map Prod.fst).Nodup) ∧
  (∀ d ∈ S.readArea, (d.2.map Prod.fst).Nodup) ∧
  (∀ d ∈ S.unread, ∀ e ∈ d.2, lookupFile S.readArea d.1 e.1 = none)

instance (S : FS) : Decidable (Inv S) := by
  unfold Inv
  infer_instance

theorem mem_insertA_elim {κ α : Type} [DecidableEq κ] {m : List (κ × α)} {k : κ} {v : α}
    {d : κ × α} (hnd : (m.map Prod.fst).Nodup) (hd : d ∈ insertA m k v) :
    d = (k, v) ∨ (d ∈ m ∧ d.1 ≠ k) := by
  induction m with
  | nil =>
    simp only [insertA, List.mem_singleton] at hd
    exact Or.inl hd
  | cons e rest ih =>
    obtain ⟨k0, v0⟩ := e
    simp only [List.map_cons, List.nodup_cons] at hnd
    by_cases hk : k0 = k
    · subst hk
      have hstep : insertA ((k0, v0) :: rest) k0 v = (k0, v) :: rest := by
        simp [insertA]
      rw [hstep] at hd
      simp only [List.mem_cons] at hd
      rcases hd with hd2 | hd2
      · exact Or.inl hd2
      · refine Or.inr ⟨List.mem_cons_of_mem _ hd2, fun hc => ?_⟩
        exact hnd.1 (List.mem_map.mpr ⟨d, hd2, hc⟩)
    · simp only [insertA, if_neg hk, List.mem_cons] at hd
      rcases hd with hd2 | hd2
      · exact Or.inr ⟨by rw [hd2]; exact List.mem_cons_self _ _, by rw [hd2]; exact hk⟩
      · rcases ih hnd.2 hd2 with h1 | h1
        · exact Or.inl h1
        · exact Or.inr ⟨List.mem_cons_of_mem _ h1.1, h1.2⟩

theorem mem_removeA_elim {κ α : Type} [DecidableEq κ] {m : List (κ × α)} {k : κ}
    {d : κ × α} (hd : d ∈ removeA m k) : d ∈ m ∧ d.1 ≠ k := by
  induction m with
  | nil => simp [removeA] at hd
  | cons e rest ih =>
    obtain ⟨k0, v0⟩ := e
    by_cases hk : k0 = k
    · simp only [removeA, if_pos hk] at hd
      obtain ⟨h1, h2⟩ := ih hd
      exact ⟨List.mem_cons_of_mem _ h1, h2⟩
    · simp only [removeA, if_neg hk, List.mem_cons] at hd
      rcases hd with hd2 | hd2
      · exact ⟨by rw [hd2]; exact List.mem_cons_self _ _, by rw [hd2]; exact hk⟩
      · obtain ⟨h1, h2⟩ := ih hd2
        exact ⟨List.mem_cons_of_mem _ h1, h2⟩

theorem removeA_insertA {κ α : Type} [DecidableEq κ] (m : List (κ × α)) (k : κ) (v : α) :
    removeA (insertA m k v) k = removeA m k := by
  induction m with
  | nil => simp [insertA, removeA]
  | cons e rest ih =>
    obtain ⟨k0, v0⟩ := e
    by_cases hk : k0 = k
    · subst hk
      simp [insertA, removeA, ih]
    · simp [insertA, removeA, hk, ih]

theorem lookupA_filter_none {κ α : Type} [DecidableEq κ] {m : List (κ × α)} {k : κ}
    {pred : κ × α → Bool} (h : lookupA m k = none) :
    lookupA (m.filter pred) k = none := by
  induction m with
  | nil => rfl
  | cons e rest ih =>
    obtain ⟨k0, v0⟩ := e
    by_cases hk : k0 = k
    · simp [lookupA, hk] at h
    · simp only [lookupA, if_neg hk] at h
      rw [List.filter_cons]
      by_cases hp : pred (k0, v0) = true
      · simp only [hp, if_true, lookupA, if_neg hk]
        exact ih h
      · simp only [Bool.not_eq_true] at hp
        simp only [hp, Bool.false_eq_true, if_false]
        exact ih h

theorem keys_filter_nodup {κ α : Type} [DecidableEq κ] (m : List (κ × α))
    (pred : κ × α → Bool) (h : (m.map Prod.fst).Nodup) :
    ((m.filter pred).map Prod.fst).Nodup :=
  List.Nodup.sublist ((m.filter_sublist).map Prod.fst) h

theorem lookupFile_insertA_other {area : Area} {us v : Str}
    {X : List (Str × Entry)} (h : v ≠ us) (key : Str) :
    lookupFile (insertA area us X) v key = lookupFile area v key := by
  simp [lookupFile, lookupA_insertA_ne _ _ h]

theorem lookupFile_insertA_self (area : Area) (us : Str) (X : List (Str × Entry))
    (key : Str) : lookupFile (insertA area us X) us key = lookupA X key := by
  simp [lookupFile, lookupA_insertA_self]

/-- Invariant preservation for the move (rename) shape shared by `MarkRead`
and `MarkAllRead`: the unread file for `key` (if any) leaves the unread
directory and lands in the read directory. -/
theorem Inv_move (S : FS) (us key : Str) (es : List (Str × Entry)) (e : Entry)
    (hInv : Inv S) (hdir : lookupA S.unread us = some es) :
    Inv { S with unread := insertA S.unread us (removeA es key),
                 readArea := insertA S.readArea us
                   (insertA ((lookupA S.readArea us).getD []) key e) } := by
  obtain ⟨h1, h2, h3, h4, h5⟩ := hInv
  have hmemU : (us, es) ∈ S.unread := lookupA_mem hdir
  have hesnd : (es.map Prod.fst).Nodup := h3 _ hmemU
  have holdnd : (((lookupA S.readArea us).getD []).map Prod.fst).Nodup := by
    cases hrd : lookupA S.readArea us with
    | none => simp
    | some old => exact h4 _ (lookupA_mem hrd)
  refine ⟨keys_insertA_nodup _ _ _ h1, keys_insertA_nodup _ _ _ h2, ?_, ?_, ?_⟩
  · intro d hd
    rcases mem_insertA_elim h1 hd with heq | ⟨hmem, _⟩
    · rw [heq]
      exact keys_removeA_nodup _ _ hesnd
    · exact h3 _ hmem
  · intro d hd
    rcases mem_insertA_elim h2 hd with heq | ⟨hmem, _⟩
    · rw [heq]
      exact keys_insertA_nodup _ _ _ holdnd
    · exact h4 _ hmem
  · intro d hd f hf
    rcases mem_insertA_elim h1 hd with heq | ⟨hmem, hne⟩
    · rw [heq] at hf ⊢
      obtain ⟨hfes, hfkey⟩ := mem_removeA_elim hf
      rw [lookupFile_insertA_self]
      rw [lookupA_insertA_ne _ _ hfkey]
      have hnone : lookupFile S.readArea us f.1 = none := h5 _ hmemU _ hfes
      cases hrd : lookupA S.readArea us with
      | none => rfl
      | some old =>
        rw [lookupFile_some_dir hrd] at hnone
        simpa using hnone
    · rw [lookupFile_insertA_other hne]
      exact h5 _ hmem _ hf

theorem Inv_removeUnreadDir (S : FS) (us : Str) (h : Inv S) :
    Inv { S with unread := removeA S.unread us } := by
  obtain ⟨h1, h2, h3, h4, h5⟩ := h
  refine ⟨keys_removeA_nodup _ _ h1, h2, ?_, h4, ?_⟩
  · intro d hd
    exact h3 _ (mem_removeA_elim hd).1
  · intro d hd f hf
    exact h5 _ (mem_removeA_elim hd).1 _ hf

theorem Inv_removeReadDir (S : FS) (us : Str) (h : Inv S) :
    Inv { S with readArea := removeA S.readArea us } := by
  obtain ⟨h1, h2, h3, h4, h5⟩ := h
  refine ⟨h1, keys_removeA_nodup _ _ h2, h3, ?_, ?_⟩
  · intro d hd
    exact h4 _ (mem_removeA_elim hd).1
  · intro d hd f hf
    by_cases hus : d.1 = us
    · simp [lookupFile, hus, lookupA_removeA_self]
    · simp only [lookupFile, lookupA_removeA_ne _ hus]
      have := h5 _ hd _ hf
      rw [lookupFile] at this
      exact this

theorem Inv_readFilter (S : FS) (us : Str) (es : List (Str × Entry))
    (pred : Str × Entry → Bool) (hInv : Inv S) (hdir : lookupA S.readArea us = some es) :
    Inv { S with readArea := insertA S.readArea us (es.filter pred) } := by
  obtain ⟨h1, h2, h3, h4, h5⟩ := hInv
  have hmemR : (us, es) ∈ S.readArea := lookupA_mem hdir
  refine ⟨h1, keys_insertA_nodup _ _ _ h2, h3, ?_, ?_⟩
  · intro d hd
    rcases mem_insertA_elim h2 hd with heq | ⟨hmem, _⟩
    · rw [heq]
      exact keys_filter_nodup _ _ (h4 _ hmemR)
    · exact h4 _ hmem
  · intro d hd f hf
    by_cases hus : d.1 = us
    · rw [hus, lookupFile_insertA_self]
      have hnone : lookupFile S.readArea us f.1 = none := by
        rw [← hus]
        exact h5 _ hd _ hf
      rw [lookupFile_some_dir hdir] at hnone
      exact lookupA_filter_none hnone
    · rw [lookupFile_insertA_other hus]
      exact h5 _ hd _ hf

theorem Inv_listOp (resolver : UserSpec → Option User) (now : Int) (caller : UserSpec)
    (opt : ListOptions) (S : FS) (ns : List Notification) (S' : FS)
    (h : listOp resolver now caller opt S = .ok (ns, S')) (hInv : Inv S) : Inv S' := by
  by_cases hid : caller.id = 0
  · simp [listOp, hid] at h
  · simp only [listOp, if_neg hid] at h
    cases hpu : procUnread resolver opt ((lookupA S.unread (marshalUserSpec caller)).getD []) with
    | error e1 => simp only [hpu] at h; simp at h
    | ok ns1 =>
      simp only [hpu] at h
      by_cases hall : opt.all = true
      · simp only [hall, if_true] at h
        cases hrd : lookupA S.readArea (marshalUserSpec caller) with
        | none =>
          simp only [hrd, Except.ok.injEq, Prod.mk.injEq] at h
          rwa [← h.2]
        | some es =>
          simp only [hrd] at h
          cases hpr : procRead resolver now opt es with
          | error e1 => simp only [hpr] at h; simp at h
          | ok pr =>
            obtain ⟨ns2, surv⟩ := pr
            simp only [hpr] at h
            have hsurv : surv = es.filter (survives now) :=
              procRead_surv resolver now opt es ns2 surv hpr
            by_cases hemp : surv.isEmpty
            · rw [if_pos hemp] at h
              simp only [Except.ok.injEq, Prod.mk.injEq] at h
              rw [← h.2]
              exact Inv_removeReadDir S _ hInv
            · rw [if_neg hemp] at h
              simp only [Except.ok.injEq, Prod.mk.injEq] at h
              rw [← h.2, hsurv]
              exact Inv_readFilter S _ es (survives now) hInv hrd
      · simp only [Bool.not_eq_true] at hall
        simp only [hall, Bool.false_eq_true, if_false, Except.ok.injEq, Prod.mk.injEq] at h
        rwa [← h.2]

theorem Inv_notifyStep (caller : UserSpec) (repoURI threadType : Str) (threadID : Nat)
    (nr : NotificationRequest) (S : FS) (sub : UserSpec × Bool) (hInv : Inv S) :
    Inv (notifyStep caller repoURI threadType threadID nr S sub) := by
  by_cases hc : sub.1 = caller
  · rwa [notifyStep_skip caller repoURI threadType threadID nr S sub hc]
  · obtain ⟨h1, h2, h3, h4, h5⟩ := hInv
    simp only [notifyStep, if_neg hc]
    cases hrd : lookupA S.readArea (marshalUserSpec sub.1) with
    | none =>
      have holds : (((lookupA S.unread (marshalUserSpec sub.1)).getD []).map Prod.fst).Nodup := by
        cases hdu : lookupA S.unread (marshalUserSpec sub.1) with
        | none => simp
        | some olds => exact h3 _ (lookupA_mem hdu)
      refine ⟨keys_insertA_nodup _ _ _ h1, h2, ?_, h4, ?_⟩
      · intro d hd
        rcases mem_insertA_elim h1 hd with heq | ⟨hmem, _⟩
        · rw [heq]
          exact keys_insertA_nodup _ _ _ holds
        · exact h3 _ hmem
      · intro d hd f hf
        rcases mem_insertA_elim h1 hd with heq | ⟨hmem, hne⟩
        · rw [heq] at hf ⊢
          rcases mem_insertA_elim holds hf with hfeq | ⟨hfmem, _⟩
          · rw [hfeq]
            exact lookupFile_none_dir hrd _
          · cases hdu : lookupA S.unread (marshalUserSpec sub.1) with
            | none => simp [hdu] at hfmem
            | some olds =>
              rw [hdu] at hfmem
              simp only [Option.getD_some] at hfmem
              exact h5 _ (lookupA_mem hdu) _ hfmem
        · exact h5 _ hmem _ hf
    | some es =>
      have holds : (((lookupA S.unread (marshalUserSpec sub.1)).getD []).map Prod.fst).Nodup := by
        cases hdu : lookupA S.unread (marshalUserSpec sub.1) with
        | none => simp
        | some olds => exact h3 _ (lookupA_mem hdu)
      refine ⟨keys_insertA_nodup _ _ _ h1, keys_insertA_nodup _ _ _ h2, ?_, ?_, ?_⟩
      · intro d hd
        rcases mem_insertA_elim h1 hd with heq | ⟨hmem, _⟩
        · rw [heq]
          exact keys_insertA_nodup _ _ _ holds
        · exact h3 _ hmem
      · intro d hd
        rcases mem_insertA_elim h2 hd with heq | ⟨hmem, _⟩
        · rw [heq]
          exact keys_removeA_nodup _ _ (h4 _ (lookupA_mem hrd))
        · exact h4 _ hmem
      · intro d hd f hf
        rcases mem_insertA_elim h1 hd with heq | ⟨hmem, hne⟩
        · rw [heq] at hf ⊢
          rw [lookupFile_insertA_self]
          rcases mem_insertA_elim holds hf with hfeq | ⟨hfmem, hfne⟩
          · rw [hfeq]
            exact lookupA_removeA_self es _
          · by_cases hfkey : f.1 = notificationKey repoURI threadType threadID
            · rw [hfkey]
              exact lookupA_removeA_self es _
            · rw [lookupA_removeA_ne _ hfkey]
              cases hdu : lookupA S.unread (marshalUserSpec sub.1) with
              | none => simp [hdu] at hfmem
              | some olds =>
                rw [hdu] at hfmem
                simp only [Option.getD_some] at hfmem
                have := h5 _ (lookupA_mem hdu) _ hfmem
                rw [lookupFile_some_dir hrd] at this
                exact this
        · rw [lookupFile_insertA_other hne]
          exact h5 _ hmem _ hf

theorem Inv_notifyFold (caller : UserSpec) (repoURI threadType : Str) (threadID : Nat)
    (nr : NotificationRequest) :
    ∀ (l : List (UserSpec × Bool)) (S : FS), Inv S →
      Inv (l.foldl (notifyStep caller repoURI threadType threadID nr) S) := by
  intro l
  induction l with
  | nil => intro S h; exact h
  | cons sub rest ih =>
    intro S h
    simp only [List.foldl_cons]
    exact ih _ (Inv_notifyStep caller repoURI threadType threadID nr S sub h)

theorem Inv_notifyOp (caller : UserSpec) (repoURI threadType : Str) (threadID : Nat)
    (nr : NotificationRequest) (S S' : FS)
    (h : notifyOp caller repoURI threadType threadID nr S = .ok S') (hInv : Inv S) :
    Inv S' := by
  by_cases hid : caller.id = 0
  · simp [notifyOp, hid] at h
  · simp only [notifyOp, if_neg hid, Except.ok.injEq] at h
    rw [← h]
    exact Inv_notifyFold caller repoURI threadType threadID nr _ S hInv

theorem Inv_markRead (caller : UserSpec) (repoURI threadType : Str) (threadID : Nat)
    (S S' : FS) (h : markReadOp caller repoURI threadType threadID S = .ok S')
    (hInv : Inv S) : Inv S' := by
  by_cases hid : caller.id = 0
  · simp [markReadOp, hid] at h
  · simp only [markReadOp, if_neg hid] at h
    cases hd : lookupA S.unread (marshalUserSpec caller) with
    | none =>
      simp only [hd, Except.ok.injEq] at h
      rwa [← h]
    | some es =>
      simp only [hd] at h
      cases hk : lookupA es (notificationKey repoURI threadType threadID) with
      | none =>
        simp only [hk, Except.ok.injEq] at h
        rwa [← h]
      | some e =>
        simp only [hk] at h
        have hT := Inv_move S (marshalUserSpec caller)
          (notificationKey repoURI threadType threadID) es e hInv hd
        by_cases hemp : (removeA es (notificationKey repoURI threadType threadID)).isEmpty
        · rw [if_pos hemp] at h
          simp only [Except.ok.injEq] at h
          rw [← h]
          have hM := Inv_removeUnreadDir _ (marshalUserSpec caller) hT
          simpa [removeA_insertA] using hM
        · rw [if_neg hemp] at h
          simp only [Except.ok.injEq] at h
          rw [← h]
          exact hT

theorem Inv_markAllLoop (caller : UserSpec) (repoURI : Str) :
    ∀ (fis : List (Str × Entry)) (S S' : FS),
      markAllLoop caller repoURI fis S = .ok S' → Inv S → Inv S' := by
  intro fis
  induction fis with
  | nil =>
    intro S S' h hI
    simp only [markAllLoop, Except.ok.injEq] at h
    rwa [← h]
  | cons e rest ih =>
    intro S S' h hI
    obtain ⟨name, entry⟩ := e
    simp only [markAllLoop] at h
    cases hdec : lookupA ((lookupA S.unread (marshalUserSpec caller)).getD []) name with
    | none =>
      simp only [hdec] at h
      exact ih S S' h hI
    | some de =>
      cases de with
      | corrupt =>
        simp only [hdec] at h
        exact ih S S' h hI
      | good n =>
        simp only [hdec] at h
        by_cases hrepo : n.repoURI = repoURI
        · rw [if_pos hrepo] at h
          cases hre : lookupA ((lookupA S.unread (marshalUserSpec caller)).getD [])
              (notificationKey repoURI n.threadType n.threadID) with
          | none => simp only [hre] at h; simp at h
          | some e2 =>
            simp only [hre] at h
            cases hdu : lookupA S.unread (marshalUserSpec caller) with
            | none =>
              rw [hdu] at hre
              simp [lookupA] at hre
            | some es0 =>
              rw [hdu] at h
              simp only [Option.getD_some] at h
              exact ih _ S' h (Inv_move S (marshalUserSpec caller)
                (notificationKey repoURI n.threadType n.threadID) es0 e2 hI
                (by rw [hdu]))
        · rw [if_neg hrepo] at h
          exact ih S S' h hI

theorem Inv_markAllRead (caller : UserSpec) (repoURI : Str) (S S' : FS)
    (h : markAllReadOp caller repoURI S = .ok S') (hInv : Inv S) : Inv S' := by
  by_cases hid : caller.id = 0
  · simp [markAllReadOp, hid] at h
  · simp only [markAllReadOp, if_neg hid] at h
    cases hl : markAllLoop caller repoURI
        ((lookupA S.unread (marshalUserSpec caller)).getD []) S with
    | error e1 => simp only [hl] at h; simp at h
    | ok S1 =>
      simp only [hl] at h
      have hI1 : Inv S1 := Inv_markAllLoop caller repoURI _ S S1 hl hInv
      cases hd : lookupA S1.unread (marshalUserSpec caller) with
      | none =>
        simp only [hd, Except.ok.injEq] at h
        rwa [← h]
      | some es =>
        simp only [hd] at h
        by_cases hemp : es.isEmpty
        · rw [if_pos hemp] at h
          simp only [Except.ok.injEq] at h
          rw [← h]
          exact Inv_removeUnreadDir S1 _ hI1
        · rw [if_neg hemp] at h
          simp only [Except.ok.injEq] at h
          rwa [← h]

/-- C2: starting from a state satisfying the uniqueness invariant (one
record per (user, key), residing in exactly one of the unread and read
areas, never both), each of `List`, `Notify`, `MarkRead` and `MarkAllRead`
preserves the invariant when it succeeds. -/
theorem C2_unique_record_per_key (S : FS)
    (resolver : UserSpec → Option User) (now : Int)
    (u1 u2 u3 u4 : UserSpec) (opt : ListOptions)
    (repo2 tt2 : Str) (tid2 : Nat) (nr : NotificationRequest)
    (repo3 tt3 : Str) (tid3 : Nat) (repo4 : Str)
    (ns : List Notification) (S1 S2 S3 S4 : FS)
    (hInv : Inv S)
    (hl : listOp resolver now u1 opt S = .ok (ns, S1))
    (hn : notifyOp u2 repo2 tt2 tid2 nr S = .ok S2)
    (hm : markReadOp u3 repo3 tt3 tid3 S = .ok S3)
    (hma : markAllReadOp u4 repo4 S = .ok S4) :
    Inv S1 ∧ Inv S2 ∧ Inv S3 ∧ Inv S4 :=
  ⟨Inv_listOp resolver now u1 opt S ns S1 hl hInv,
    Inv_notifyOp u2 repo2 tt2 tid2 nr S S2 hn hInv,
    Inv_markRead u3 repo3 tt3 tid3 S S3 hm hInv,
    Inv_markAllRead u4 repo4 S S4 hma hInv⟩

def c2n : DiskNotif :=
  ⟨("r".toList), ("t".toList), 1, [], [], ⟨0, 0, 0⟩, ⟨2, []⟩, 0, [], false⟩

def c2State : FS :=
  ⟨[(marshalUserSpec ⟨1, []⟩,
      [(notificationKey ("r".toList) ("t".toList) 1, Entry.good c2n)])],
   [], []⟩

def c2nr : NotificationRequest := ⟨[], [], ⟨0, 0, 0⟩, ⟨2, []⟩, 0, []⟩

def c2L : Except Err (List Notification × FS) :=
  listOp (fun _ => none) 0 ⟨1, []⟩ ⟨true, none⟩ c2State

def c2ns : List Notification :=
  match c2L with
  | .ok p => p.1
  | .error _ => []

def c2S1 : FS :=
  match c2L with
  | .ok p => p.2
  | .error _ => c2State

def c2S2 : FS :=
  match notifyOp ⟨2, []⟩ ("r".toList) ("t".toList) 1 c2nr c2State with
  | .ok s => s
  | .error _ => c2State

def c2S3 : FS :=
  match markReadOp ⟨1, []⟩ ("r".toList) ("t".toList) 1 c2State with
  | .ok s => s
  | .error _ => c2State

def c2S4 : FS :=
  match markAllReadOp ⟨1, []⟩ ("r".toList) c2State with
  | .ok s => s
  | .error _ => c2State

theorem C2_unique_record_per_key_witness :
    (Inv c2State ∧
      listOp (fun _ => none) 0 ⟨1, []⟩ ⟨true, none⟩ c2State = .ok (c2ns, c2S1) ∧
      notifyOp ⟨2, []⟩ ("r".toList) ("t".toList) 1 c2nr c2State = .ok c2S2 ∧
      markReadOp ⟨1, []⟩ ("r".toList) ("t".toList) 1 c2State = .ok c2S3 ∧
      markAllReadOp ⟨1, []⟩ ("r".toList) c2State = .ok c2S4) ∧
    (Inv c2S1 ∧ Inv c2S2 ∧ Inv c2S3 ∧ Inv c2S4) :=
  ⟨⟨by decide, rfl, rfl, rfl, rfl⟩,
    C2_unique_record_per_key c2State (fun _ => none) 0 ⟨1, []⟩ ⟨2, []⟩ ⟨1, []⟩ ⟨1, []⟩
      ⟨true, none⟩ ("r".toList) ("t".toList) 1 c2nr ("r".toList) ("t".toList) 1
      ("r".toList) c2ns c2S1 c2S2 c2S3 c2S4 (by decide) rfl rfl rfl rfl⟩

def c6n : DiskNotif :=
  ⟨("r".toList), ("t".toList), 1, [], [], ⟨0, 0, 0⟩, ⟨2, []⟩, 0, [], false⟩

def c6State : FS :=
  ⟨[], [(marshalUserSpec ⟨1, []⟩, [(("k".toList), Entry.good c6n)])], []⟩

theorem C6_retention_expiry_witness :
    ((((lookupA c6State.readArea (marshalUserSpec ⟨1, []⟩)).getD []).map
          Prod.fst).Nodup ∧
      listOp (fun _ => none) (retention + 1) ⟨1, []⟩ ⟨true, none⟩ c6State =
        .ok ([], ⟨[], [], []⟩) ∧
      lookupFile c6State.readArea (marshalUserSpec ⟨1, []⟩) ("k".toList) =
        some (Entry.good c6n) ∧
      retention < (retention + 1) - c6n.updatedAt) ∧
    (lookupFile (⟨[], [], []⟩ : FS).readArea (marshalUserSpec ⟨1, []⟩) ("k".toList) = none ∧
      (([] : List Notification).all
        (fun nf => !nf.read || decide ((retention + 1) - nf.updatedAt ≤ retention))) = true) :=
  ⟨⟨by decide, rfl, by decide, by decide⟩,
    C6_retention_expiry (fun _ => none) (retention + 1) ⟨1, []⟩ none c6State []
      ⟨[], [], []⟩ ("k".toList) c6n (by decide) rfl (by decide) (by decide)⟩

/-! ### `MarkAllRead` characterization (C8) -/

/-- Whether `MarkAllRead` for `repoURI` moves this file: it decodes and its
stored repo matches. -/
def movedB (repoURI : Str) (e : Str × Entry) : Bool :=
  match e.2 with
  | Entry.good n => decide (n.repoURI = repoURI)
  | Entry.corrupt => false

/-- Directory contents are well-keyed for `repoURI`: every decodable record
whose repo matches is stored under the key `Notify` computes for it.  This
holds for any directory written by `Notify`. -/
def wellKeyedB (repoURI : Str) (es : List (Str × Entry)) : Bool :=
  es.all fun e =>
    match e.2 with
    | Entry.good n =>
      !(decide (n.repoURI = repoURI)) ||
        decide (e.1 = notificationKey repoURI n.threadType n.threadID)
    | Entry.corrupt => true

theorem lookupA_self_of_nodup {κ α : Type} [DecidableEq κ] {m : List (κ × α)}
    (hnd : (m.map Prod.fst).Nodup) : ∀ e ∈ m, lookupA m e.1 = some e.2 := by
  induction m with
  | nil => intro e he; simp at he
  | cons e0 rest ih =>
    intro e he
    obtain ⟨k0, v0⟩ := e0
    simp only [List.map_cons, List.nodup_cons] at hnd
    rcases List.mem_cons.mp he with heq | hmem
    · rw [heq]
      simp [lookupA]
    · have hne : k0 ≠ e.1 := by
        intro hc
        exact hnd.1 (List.mem_map.mpr ⟨e, hmem, hc.symm⟩)
      simp only [lookupA, if_neg hne]
      exact ih hnd.2 e hmem

theorem mem_eq_of_keys_nodup {κ α : Type} [DecidableEq κ] {m : List (κ × α)}
    {e e' : κ × α} (hnd : (m.map Prod.fst).Nodup) (h1 : e ∈ m) (h2 : e' ∈ m)
    (hk : e.1 = e'.1) : e = e' := by
  have ha := lookupA_self_of_nodup hnd e h1
  have hb := lookupA_self_of_nodup hnd e' h2
  rw [hk] at ha
  rw [ha] at hb
  simp only [Option.some.injEq] at hb
  obtain ⟨k1, v1⟩ := e
  obtain ⟨k2, v2⟩ := e'
  simp only at hk hb
  rw [hk, hb]

theorem markAllLoop_spec (caller : UserSpec) (repoURI : Str) :
    ∀ (fis : List (Str × Entry)) (T : FS) (cur : List (Str × Entry)),
      lookupA T.unread (marshalUserSpec caller) = some cur →
      (∀ e ∈ fis, lookupA cur e.1 = some e.2) →
      (fis.map Prod.fst).Nodup →
      wellKeyedB repoURI fis = true →
      ∃ F, markAllLoop caller repoURI fis T = .ok F ∧
        (∃ fin, lookupA F.unread (marshalUserSpec caller) = some fin) ∧
        (∀ e ∈ fis, movedB repoURI e = true →
          lookupFile F.unread (marshalUserSpec caller) e.1 = none ∧
          lookupFile F.readArea (marshalUserSpec caller) e.1 = some e.2) ∧
        (∀ name v, lookupA cur name = some v →
          (∀ e ∈ fis, e.1 = name → movedB repoURI e = false) →
          lookupFile F.unread (marshalUserSpec caller) name = some v) ∧
        (∀ name, lookupA cur name = none →
          lookupFile F.unread (marshalUserSpec caller) name = none) ∧
        (∀ name, (∀ e ∈ fis, e.1 ≠ name) →
          lookupFile F.readArea (marshalUserSpec caller) name =
            lookupFile T.readArea (marshalUserSpec caller) name) := by
  intro fis
  induction fis with
  | nil =>
    intro T cur hdir hall hnd hwk
    refine ⟨T, rfl, ⟨cur, hdir⟩, ?_, ?_, ?_, ?_⟩
    · intro e he; simp at he
    · intro name v hv _
      rw [lookupFile_some_dir hdir]
      exact hv
    · intro name hv
      rw [lookupFile_some_dir hdir]
      exact hv
    · intro name _; rfl
  | cons e0 rest ih =>
    intro T cur hdir hall hnd hwk
    obtain ⟨name, entry⟩ := e0
    have hhead : lookupA cur name = some entry := by
      simpa using hall (name, entry) (List.mem_cons_self _ _)
    have hdecode : lookupA ((lookupA T.unread (marshalUserSpec caller)).getD []) name =
        some entry := by
      rw [hdir]
      simpa using hhead
    simp only [wellKeyedB, List.all_cons, Bool.and_eq_true] at hwk
    obtain ⟨hwkh, hwkr⟩ := hwk
    simp only [List.map_cons, List.nodup_cons] at hnd
    have hallr : ∀ e ∈ rest, lookupA cur e.1 = some e.2 :=
      fun e he => hall e (List.mem_cons_of_mem _ he)
    cases entry with
    | corrupt =>
      obtain ⟨F, hF, hD, hB, hC, hE, hR⟩ := ih T cur hdir hallr hnd.2 hwkr
      refine ⟨F, ?_, hD, ?_, ?_, hE, ?_⟩
      · simp only [markAllLoop, hdecode]
        exact hF
      · intro e he hmoved
        rcases List.mem_cons.mp he with heq | hmem
        · rw [heq] at hmoved
          simp [movedB] at hmoved
        · exact hB e hmem hmoved
      · intro name0 v hv hcond
        exact hC name0 v hv (fun e he hne => hcond e (List.mem_cons_of_mem _ he) hne)
      · intro name0 hcond
        exact hR name0 (fun e he => hcond e (List.mem_cons_of_mem _ he))
    | good n =>
      by_cases hrepo : n.repoURI = repoURI
      · have hkey : name = notificationKey repoURI n.threadType n.threadID := by
          have h2 : (!(decide (n.repoURI = repoURI)) ||
              decide (name = notificationKey repoURI n.threadType n.threadID)) = true := hwkh
          rw [hrepo] at h2
          simpa using h2
        have hgetd : (lookupA T.unread (marshalUserSpec caller)).getD [] = cur := by
          rw [hdir]
          rfl
        have hsrc2 : lookupA cur (notificationKey repoURI n.threadType n.threadID) =
            some (Entry.good n) := by
          rw [← hkey]
          exact hhead
        have hninr : name ∉ rest.map Prod.fst := hnd.1
        have hdir' : lookupA (insertA T.unread (marshalUserSpec caller)
              (removeA cur (notificationKey repoURI n.threadType n.threadID)))
            (marshalUserSpec caller) =
            some (removeA cur (notificationKey repoURI n.threadType n.threadID)) :=
          lookupA_insertA_self _ _ _
        have hkeyne : ∀ e ∈ rest, e.1 ≠ notificationKey repoURI n.threadType n.threadID := by
          intro e he hc
          rw [← hkey] at hc
          exact hninr (List.mem_map.mpr ⟨e, he, hc⟩)
        have hallr' : ∀ e ∈ rest,
            lookupA (removeA cur (notificationKey repoURI n.threadType n.threadID)) e.1 =
              some e.2 := by
          intro e he
          rw [lookupA_removeA_ne _ (hkeyne e he)]
          exact hallr e he
        obtain ⟨F, hF, hD, hB, hC, hE, hR⟩ := ih
          { T with
            unread := insertA T.unread (marshalUserSpec caller)
              (removeA cur (notificationKey repoURI n.threadType n.threadID)),
            readArea := insertA T.readArea (marshalUserSpec caller)
              (insertA ((lookupA T.readArea (marshalUserSpec caller)).getD [])
                (notificationKey repoURI n.threadType n.threadID) (Entry.good n)) }
          (removeA cur (notificationKey repoURI n.threadType n.threadID))
          hdir' hallr' hnd.2 hwkr
        refine ⟨F, ?_, hD, ?_, ?_, ?_, ?_⟩
        · simp only [markAllLoop, hgetd, hhead, if_pos hrepo, hsrc2]
          exact hF
        · intro e he hmoved
          rcases List.mem_cons.mp he with heq | hmem
          · have hename : e.1 = name := by rw [heq]
            have hename2 : e.2 = Entry.good n := by rw [heq]
            rw [hename, hkey, hename2]
            constructor
            · exact hE _ (lookupA_removeA_self cur _)
            · rw [hR _ hkeyne]
              rw [lookupFile_insertA_self]
              rw [lookupA_insertA_self]
          · exact hB e hmem hmoved
        · intro name0 v hv hcond
          have hne0 : name0 ≠ notificationKey repoURI n.threadType n.threadID := by
            intro hc
            have := hcond (name, Entry.good n) (List.mem_cons_self _ _) (by rw [hkey, hc])
            simp [movedB, hrepo] at this
          refine hC name0 v ?_ (fun e he hne => hcond e (List.mem_cons_of_mem _ he) hne)
          rw [lookupA_removeA_ne _ hne0]
          exact hv
        · intro name0 hv
          cases hrc : lookupA (removeA cur (notificationKey repoURI n.threadType n.threadID))
              name0 with
          | none => exact hE name0 hrc
          | some v2 =>
            have hcur : lookupA cur name0 = some v2 := by
              by_cases hc : name0 = notificationKey repoURI n.threadType n.threadID
              · rw [hc, lookupA_removeA_self] at hrc
                cases hrc
              · rw [lookupA_removeA_ne _ hc] at hrc
                exact hrc
            rw [hcur] at hv
            cases hv
        · intro name0 hcond
          have hnerest : ∀ e ∈ rest, e.1 ≠ name0 :=
            fun e he => hcond e (List.mem_cons_of_mem _ he)
          rw [hR name0 hnerest]
          have hne0 : notificationKey repoURI n.threadType n.threadID ≠ name0 := by
            rw [← hkey]
            exact hcond (name, Entry.good n) (List.mem_cons_self _ _)
          rw [lookupFile_insertA_self]
          rw [lookupA_insertA_ne _ _ (Ne.symm hne0)]
          cases hrd : lookupA T.readArea (marshalUserSpec caller) with
          | none => simp [lookupFile, hrd, lookupA]
          | some olds => simp [lookupFile, hrd]
      · obtain ⟨F, hF, hD, hB, hC, hE, hR⟩ := ih T cur hdir hallr hnd.2 hwkr
        refine ⟨F, ?_, hD, ?_, ?_, hE, ?_⟩
        · simp only [markAllLoop, hdecode, if_neg hrepo]
          exact hF
        · intro e he hmoved
          rcases List.mem_cons.mp he with heq | hmem
          · rw [heq] at hmoved
            simp [movedB, hrepo] at hmoved
          · exact hB e hmem hmoved
        · intro name0 v hv hcond
          exact hC name0 v hv (fun e he hne => hcond e (List.mem_cons_of_mem _ he) hne)
        · intro name0 hcond
          exact hR name0 (fun e he => hcond e (List.mem_cons_of_mem _ he))

/-- C8: a `MarkAllRead` by an authenticated caller on a well-keyed unread
directory succeeds (decode failures are skipped, not fatal), moves exactly
the records whose stored repo matches into the read area, and leaves every
other record — other repos and undecodable files — in the unread area. -/
theorem C8_markAllRead_scoping (caller : UserSpec) (repoURI : Str) (S S' : FS)
    (hauth : caller.id ≠ 0)
    (hwk : wellKeyedB repoURI ((lookupA S.unread (marshalUserSpec caller)).getD []) = true)
    (hnd : (((lookupA S.unread (marshalUserSpec caller)).getD []).map Prod.fst).Nodup) :
    exOk (markAllReadOp caller repoURI S) = true ∧
      (markAllReadOp caller repoURI S = .ok S' →
        ((lookupA S.unread (marshalUserSpec caller)).getD []).all (fun e =>
          if movedB repoURI e
          then decide (lookupFile S'.unread (marshalUserSpec caller) e.1 = none) &&
            decide (lookupFile S'.readArea (marshalUserSpec caller) e.1 = some e.2)
          else decide (lookupFile S'.unread (marshalUserSpec caller) e.1 = some e.2)) =
          true) := by
  cases hdu : lookupA S.unread (marshalUserSpec caller) with
  | none =>
    have hop : markAllReadOp caller repoURI S = .ok S := by
      simp [markAllReadOp, if_neg hauth, hdu, markAllLoop]
    constructor
    · rw [hop]
      rfl
    · intro h
      simp [hdu]
  | some es =>
    rw [hdu] at hwk hnd
    simp only [Option.getD_some] at hwk hnd
    obtain ⟨F, hF, ⟨fin, hfin⟩, hB, hC, hE, hR⟩ :=
      markAllLoop_spec caller repoURI es S es hdu (lookupA_self_of_nodup hnd) hnd hwk
    have hself : ∀ e ∈ es, lookupA es e.1 = some e.2 := lookupA_self_of_nodup hnd
    have hgetd : (lookupA S.unread (marshalUserSpec caller)).getD [] = es := by
      rw [hdu]
      rfl
    have hop : markAllReadOp caller repoURI S =
        .ok (if fin.isEmpty then { F with unread := removeA F.unread (marshalUserSpec caller) }
          else F) := by
      simp only [markAllReadOp, if_neg hauth, hgetd, hF, hfin]
      by_cases hfe : fin.isEmpty
      · rw [if_pos hfe, if_pos hfe]
      · rw [if_neg hfe, if_neg hfe]
    constructor
    · rw [hop]
      rfl
    · intro h
      rw [hop] at h
      simp only [Except.ok.injEq] at h
      simp only [Option.getD_some]
      rw [List.all_eq_true]
      intro e he
      by_cases hmv : movedB repoURI e = true
      · obtain ⟨hu, hr⟩ := hB e he hmv
        have hu' : lookupFile S'.unread (marshalUserSpec caller) e.1 = none := by
          rw [← h]
          by_cases hfe : fin.isEmpty
          · rw [if_pos hfe]
            simp [lookupFile, lookupA_removeA_self]
          · rw [if_neg hfe]
            exact hu
        have hr' : lookupFile S'.readArea (marshalUserSpec caller) e.1 = some e.2 := by
          rw [← h]
          by_cases hfe : fin.isEmpty
          · rw [if_pos hfe]
            exact hr
          · rw [if_neg hfe]
            exact hr
        simp [hmv, hu', hr']
      · have hkept : lookupFile F.unread (marshalUserSpec caller) e.1 = some e.2 := by
          refine hC e.1 e.2 (hself e he) ?_
          intro e' he' hk
          have : e' = e := mem_eq_of_keys_nodup hnd he' he hk
          rw [this]
          exact Bool.not_eq_true _ ▸ hmv
        have hnotemp : fin.isEmpty = false := by
          by_contra hcon
          simp only [Bool.not_eq_false] at hcon
          have hfin0 : fin = [] := by
            cases fin with
            | nil => rfl
            | cons a b => simp at hcon
          rw [lookupFile_some_dir hfin, hfin0] at hkept
          cases hkept
        have hS'F : S' = F := by
          rw [← h, hnotemp]
          simp
        rw [hS'F]
        simp only [Bool.not_eq_true] at hmv
        simp [hmv, hkept]

def c8good : DiskNotif :=
  ⟨("r".toList), ("t".toList), 1, [], [], ⟨0, 0, 0⟩, ⟨2, []⟩, 0, [], false⟩

def c8other : DiskNotif :=
  ⟨("s".toList), ("t".toList), 2, [], [], ⟨0, 0, 0⟩, ⟨2, []⟩, 0, [], false⟩

def c8State : FS :=
  ⟨[(marshalUserSpec ⟨1, []⟩,
      [(notificationKey ("r".toList) ("t".toList) 1, Entry.good c8good),
       (notificationKey ("s".toList) ("t".toList) 2, Entry.good c8other),
       (("junk".toList), Entry.corrupt)])],
   [], []⟩

def c8After : FS :=
  match markAllReadOp ⟨1, []⟩ ("r".toList) c8State with
  | .ok s => s
  | .error _ => c8State

theorem C8_markAllRead_scoping_witness :
    ((⟨1, []⟩ : UserSpec).id ≠ 0 ∧
      wellKeyedB ("r".toList)
        ((lookupA c8State.unread (marshalUserSpec ⟨1, []⟩)).getD []) = true ∧
      (((lookupA c8State.unread (marshalUserSpec ⟨1, []⟩)).getD []).map Prod.fst).Nodup) ∧
    (exOk (markAllReadOp ⟨1, []⟩ ("r".toList) c8State) = true ∧
      (markAllReadOp ⟨1, []⟩ ("r".toList) c8State = .ok c8After →
        ((lookupA c8State.unread (marshalUserSpec ⟨1, []⟩)).getD []).all (fun e =>
          if movedB ("r".toList) e
          then decide (lookupFile c8After.unread (marshalUserSpec ⟨1, []⟩) e.1 = none) &&
            decide (lookupFile c8After.readArea (marshalUserSpec ⟨1, []⟩) e.1 = some e.2)
          else decide (lookupFile c8After.unread (marshalUserSpec ⟨1, []⟩) e.1 = some e.2)) =
          true)) :=
  ⟨⟨by decide, by decide, by decide⟩,
    C8_markAllRead_scoping ⟨1, []⟩ ("r".toList) c8State c8After
      (by decide) (by decide) (by decide)⟩

end NotifFS

